import Mathlib

/-!
# Verification of the KoREKtor ingestion core

A shallow embedding, in Lean 4, of the document-ingestion core of the
KoREKtor repository:

* `pdf_chunker.py` — `IntelligentPDFChunker.chunk_documents`, which delegates
  oversized documents to langchain's `RecursiveCharacterTextSplitter`
  (`split_text` / `_split_text` / `_split_text_with_regex` / `_merge_splits`,
  with the splitter's defaults `keep_separator=True`,
  `is_separator_regex=False`, `strip_whitespace=True`).  The splitter is a
  library the repository calls; it is embedded here from its (well-known)
  implementation so the chunk-size claims can be settled against what the
  repository actually executes.
* `document_manager.py` — `DocumentManager._pdfs_changed`, `has_changes`,
  `load_pdf_documents`, `load_all_documents`.
* `web_loader.py` — `load_url_documents`.
* `vector_optimization.py` — `VectorStoreCache._calculate_content_hash`,
  `_load_metadata`, `is_cache_valid`, `load_vectorstore`.

Python strings are modelled as `List Char`; machine I/O (the filesystem,
`fitz`, `requests`, BeautifulSoup) is modelled as explicit environment data;
fallible code returns `Option`/`Except`.
-/

set_option linter.unusedVariables false

/-! ## Basic string machinery (Python `str` as `List Char`) -/

/-- The whitespace characters removed by Python's `str.strip()` (ASCII part:
space, tab, newline, carriage return, vertical tab, form feed). -/
def isPyWS (c : Char) : Bool :=
  c == ' ' || c == '\t' || c == '\n' || c == '\r' ||
    c == Char.ofNat 11 || c == Char.ofNat 12

/-- Python's `str.strip()`: drop whitespace from both ends. -/
def pyStrip (l : List Char) : List Char :=
  (((l.dropWhile isPyWS).reverse).dropWhile isPyWS).reverse

/-- Python's `separator.join(docs)`. -/
def joinSep (sep : List Char) : List (List Char) → List Char
  | [] => []
  | c :: rest => c ++ (if rest.isEmpty then [] else sep) ++ joinSep sep rest

/-- `leadsWith pat l` is true when `pat` is an initial segment of `l`
(Python `l.startswith(pat)` restricted to what the splitter needs). -/
def leadsWith : List Char → List Char → Bool
  | [], _ => true
  | _ :: _, [] => false
  | p :: ps, c :: cs => p == c && leadsWith ps cs

/-- `re.search(re.escape(sep), text)` for a literal separator: does `sep`
occur as a contiguous substring of `text`? -/
def occursIn (sep : List Char) : List Char → Bool
  | [] => sep.isEmpty
  | c :: cs => leadsWith sep (c :: cs) || occursIn sep cs

/-- Locate the leftmost occurrence of the (nonempty) literal `sep` in `text`,
returning the part before it and the part after it. -/
def findSep (sep : List Char) : List Char → Option (List Char × List Char)
  | [] => none
  | c :: cs =>
    if leadsWith sep (c :: cs) then some ([], (c :: cs).drop sep.length)
    else
      match findSep sep cs with
      | some (a, b) => some (c :: a, b)
      | none => none

/-- Worker for `splitOnSep` with explicit fuel (each step removes at least one
character when `sep` is nonempty, so `text.length` fuel is always enough). -/
def splitOnAux (sep : List Char) : Nat → List Char → List (List Char)
  | 0, text => [text]
  | fuel + 1, text =>
    match findSep sep text with
    | none => [text]
    | some (a, b) => a :: splitOnAux sep fuel b

/-- Python `re.split(re.escape(sep), text)`: the pieces of `text` between
leftmost non-overlapping occurrences of the literal `sep`. -/
def splitOnSep (sep : List Char) (text : List Char) : List (List Char) :=
  splitOnAux sep text.length text

/-- langchain `_split_text_with_regex(text, re.escape(sep), keep_separator=True)`
for a nonempty separator: every piece after the first is re-prefixed with the
separator that introduced it, and empty pieces are filtered out. -/
def splitKeepSep (sep text : List Char) : List (List Char) :=
  (match splitOnSep sep text with
   | [] => []
   | p :: ps => p :: ps.map (fun q => sep ++ q)).filter (fun l => !l.isEmpty)

/-- langchain `_split_text_with_regex(text, "", ...)`: `list(text)`
(empty pieces filtered — there are none). -/
def splitChars (text : List Char) : List (List Char) :=
  text.map (fun c => [c])

/-! ## langchain `RecursiveCharacterTextSplitter` (embedded) -/

/-- `TextSplitter._join_docs(docs, separator)` with the default
`strip_whitespace=True`: join, strip, and drop the result when empty. -/
def joinDocs (sep : List Char) (docs : List (List Char)) : Option (List Char) :=
  let text := pyStrip (joinSep sep docs)
  if text.isEmpty then none else some text

/-- The popping `while` loop inside `TextSplitter._merge_splits`.  `dLen` is
the length of the split about to be appended.  (Python would fault on an empty
`current_doc` with positive `total`; that state is unreachable because `total`
always equals the joined length of `current_doc`, and the embedding simply
stops there.) -/
def mergePop (B O sepLen dLen : Nat) : List (List Char) → Nat → List (List Char) × Nat
  | [], total => ([], total)
  | c :: cs, total =>
    if O < total ∨ (B < total + dLen + sepLen ∧ 0 < total) then
      mergePop B O sepLen dLen cs (total - (c.length + if cs.isEmpty then 0 else sepLen))
    else (c :: cs, total)

/-- The `for d in splits` loop of `TextSplitter._merge_splits`, carrying
`current_doc` and `total`. -/
def mergeGo (B O : Nat) (sep : List Char) : List (List Char) → List (List Char) → Nat → List (List Char)
  | [], cur, total => (joinDocs sep cur).toList
  | d :: ds, cur, total =>
    if B < total + d.length + (if cur.isEmpty then 0 else sep.length) then
      if cur.isEmpty then
        mergeGo B O sep ds [d] (total + d.length)
      else
        (joinDocs sep cur).toList ++
          (let p := mergePop B O sep.length d.length cur total
           mergeGo B O sep ds (p.1 ++ [d])
             (p.2 + d.length + (if p.1.isEmpty then 0 else sep.length)))
    else
      mergeGo B O sep ds (cur ++ [d])
        (total + d.length + (if cur.isEmpty then 0 else sep.length))

/-- `TextSplitter._merge_splits(splits, separator)` with chunk size `B` and
chunk overlap `O`. -/
def mergeSplits (B O : Nat) (sep : List Char) (splits : List (List Char)) : List (List Char) :=
  mergeGo B O sep splits [] 0

/-- The body of `RecursiveCharacterTextSplitter._split_text` after the
separator has been chosen: walk the splits, buffering the "good" ones
(length `< B`) and, at each oversized split, flushing the buffer through
`_merge_splits` and then either recursing (`withRec = true`, precomputed
result in the second component) or emitting the oversized split as is
(`withRec = false`, i.e. `new_separators == []`).  The merge separator is
`""` because `keep_separator=True`. -/
def buildChunks (B O : Nat) (withRec : Bool) : List (List Char × List (List Char)) → List (List Char) → List (List Char)
  | [], good => if good.isEmpty then [] else mergeSplits B O [] good
  | (sp, r) :: items, good =>
    if sp.length < B then buildChunks B O withRec items (good ++ [sp])
    else
      (if good.isEmpty then [] else mergeSplits B O [] good)
        ++ (if withRec then r else [sp])
        ++ buildChunks B O withRec items []

/-- `RecursiveCharacterTextSplitter._split_text(text, separators)`.  The
Python scan picks the first separator that is `""` or occurs in `text`
(falling back to the last one), and recurses with the remaining suffix; the
structural recursion below follows the same scan.  The recursive results are
precomputed for every split and passed to `buildChunks`, which only consults
them for oversized splits — extensionally identical to the Python control
flow. -/
def splitTextRec (B O : Nat) : List (List Char) → List Char → List (List Char)
  | [], text => [text]
  | s :: rest, text =>
    if s.isEmpty then
      buildChunks B O false ((splitChars text).map (fun sp => (sp, []))) []
    else if occursIn s text then
      buildChunks B O (!rest.isEmpty)
        ((splitKeepSep s text).map (fun sp => (sp, splitTextRec B O rest sp))) []
    else if rest.isEmpty then
      buildChunks B O false ((splitKeepSep s text).map (fun sp => (sp, []))) []
    else
      splitTextRec B O rest text

/-! ## `pdf_chunker.py` — `IntelligentPDFChunker.chunk_documents` -/

/-- The metadata a document carries, restricted to what the claims are about:
an origin identifier (file name or page title), and the optional
`chunk_id` / `total_chunks` / `chunk_type == "pre_chunked"` keys that the
chunkers may add.  A key that was never set is `none` (absent from the
Python dict). -/
structure Meta where
  src : List Char
  chunkId : Option Nat
  totalChunks : Option Nat
  preChunked : Bool
deriving DecidableEq, Repr

/-- A langchain `Document`: page content plus metadata. -/
structure Doc where
  content : List Char
  meta : Meta
deriving DecidableEq, Repr

/-- The separator list `IntelligentPDFChunker.chunk_documents` passes to
`RecursiveCharacterTextSplitter`. -/
def pdfSeparators : List (List Char) :=
  ["\n## ".toList, "\n### ".toList, "\n#### ".toList, "\n\n".toList,
   "\n".toList, ". ".toList, ", ".toList, " ".toList, "".toList]

/-- The per-document body of `IntelligentPDFChunker.chunk_documents`: a small
document (content length `≤ chunk_size`) is appended unchanged; a larger one
is split and each piece gets `chunk_id = i` and `total_chunks = len(texts)`
copied on top of the parent metadata. -/
def chunkOne (B O : Nat) (d : Doc) : List Doc :=
  if d.content.length ≤ B then [d]
  else
    let texts := splitTextRec B O pdfSeparators d.content
    texts.enum.map fun p =>
      ⟨p.2, { d.meta with
        chunkId := some p.1
        totalChunks := some texts.length }⟩

/-- `IntelligentPDFChunker.chunk_documents(documents)` with chunk size `B`
and chunk overlap `O`. -/
def chunkDocuments (B O : Nat) (docs : List Doc) : List Doc :=
  (docs.map (chunkOne B O)).flatten

/-! ## `web_loader.py` — `load_url_documents` -/

/-- The separator list `load_url_documents` uses when `enable_chunking` is
set. -/
def webSeparators : List (List Char) :=
  ["\n\nKrok ".toList, "\n\nPunkt ".toList, "\n\nUwaga:".toList, "\n\n".toList,
   "\n".toList, ". ".toList, " ".toList, "".toList]

/-- What one iteration of the URL loop observes about a URL, with the network
and BeautifulSoup layers as environment data: either the fetch raised
(`requests.RequestException`, `raise_for_status`, parse errors — all caught by
the loop), or a page with a title and the text `get_full_content` extracted
from it. -/
inductive FetchResult where
  | fetchError : FetchResult
  | page : (title : List Char) → (extracted : List Char) → FetchResult
deriving DecidableEq, Repr

/-- The documents one URL contributes in `load_url_documents`: skip on fetch
error; skip when the extracted text is empty; truncate to 1,000,000
characters; skip when the (truncated) text is not longer than 50 characters;
otherwise emit either pre-chunked pieces (when `enable_chunking` and the text
exceeds `chunk_size`) or a single whole-page document. -/
def docsForFetch (enableChunking : Bool) (chunkSize : Nat) : FetchResult → List Doc
  | .fetchError => []
  | .page title extracted =>
    if extracted.isEmpty then []
    else
      let fullContent := extracted.take 1000000
      if 50 < fullContent.length then
        if enableChunking = true ∧ chunkSize < fullContent.length then
          let chunks := splitTextRec chunkSize 200 webSeparators fullContent
          chunks.enum.map fun p =>
            ⟨p.2, ⟨title, some p.1, some chunks.length, true⟩⟩
        else [⟨fullContent, ⟨title, none, none, false⟩⟩]
      else []

/-- `load_url_documents(urls_file, enable_chunking, chunk_size)` over the
fetch results of the URLs listed in the file. -/
def loadUrlDocuments (fetches : List FetchResult) (enableChunking : Bool) (chunkSize : Nat) : List Doc :=
  (fetches.map (docsForFetch enableChunking chunkSize)).flatten

/-! ## `document_manager.py` — loading -/

/-- A PDF file as `load_pdf_documents` observes it, with the `fitz` layer as
environment data: `sections = none` means opening/parsing the file raises
(the exception is NOT caught anywhere in `DocumentManager`); otherwise
`sections` holds the raw accumulated per-section texts that
`_extract_pdf_structure` would strip and emit. -/
structure PdfFileInfo where
  name : List Char
  sections : Option (List (List Char))
deriving DecidableEq, Repr

/-- The errors `load_all_documents` can propagate: an uncaught PDF parse
exception, or the explicit `ValueError` raised when no documents were found
at all. -/
inductive LoadError where
  | pdfParse : LoadError
  | noDocuments : LoadError
deriving DecidableEq, Repr

/-- `IntelligentPDFChunker._extract_pdf_structure` on one file: propagate a
parse failure; otherwise emit each accumulated section text stripped, skipping
empty ones (the code only checks emptiness for the last section of a page, but
every mid-page section it emits contains its nonempty `## header` line, so the
uniform guard is extensionally the same). -/
def extractPdf (f : PdfFileInfo) : Except LoadError (List Doc) :=
  match f.sections with
  | none => .error .pdfParse
  | some secs => .ok (secs.filterMap fun t =>
      let s := pyStrip t
      if s.isEmpty then none else some ⟨s, ⟨f.name, none, none, false⟩⟩)

/-- `DocumentManager.load_pdf_documents`: extract every file in the listing;
there is no `try`/`except` around `_extract_pdf_structure`, so the first
parse failure propagates out of the whole batch. -/
def loadPdfDocuments : List PdfFileInfo → Except LoadError (List Doc)
  | [] => .ok []
  | f :: fs =>
    match extractPdf f with
    | .error e => .error e
    | .ok docs =>
      match loadPdfDocuments fs with
      | .error e => .error e
      | .ok rest => .ok (docs ++ rest)

/-- `DocumentManager.load_url_documents`: a missing `urls.txt`
(`FileNotFoundError`) yields `[]`; otherwise delegate with the defaults
`enable_chunking=False`, `chunk_size=3000`. -/
def urlDocsOf : Option (List FetchResult) → List Doc
  | none => []
  | some fs => loadUrlDocuments fs false 3000

/-- `DocumentManager.load_all_documents`: load PDFs (parse failures
propagate), load URL documents, raise `ValueError` when both are empty,
otherwise chunk everything. -/
def loadAllDocuments (B O : Nat) (pdfs : List PdfFileInfo)
    (urlsFile : Option (List FetchResult)) : Except LoadError (List Doc) :=
  match loadPdfDocuments pdfs with
  | .error e => .error e
  | .ok pdfDocs =>
    let allDocs := pdfDocs ++ urlDocsOf urlsFile
    if allDocs.isEmpty then .error .noDocuments
    else .ok (chunkDocuments B O allDocs)

/-! ## `document_manager.py` — change tracking -/

/-- The mutable tracking state of `DocumentManager`: the set `_known_pdfs`
of file names and the dict `_pdf_mtimes` from file name to `st_mtime`.
Python-set and Python-dict equality are extensional; the lists here are
representations, compared through membership and `lookupName`. -/
structure TrackerState where
  knownPdfs : List (List Char)
  pdfMtimes : List (List Char × Nat)
deriving DecidableEq, Repr

/-- The state of a freshly constructed `DocumentManager`. -/
def initialTracker : TrackerState := ⟨[], []⟩

/-- Python `dict.get(name)` on an association list. -/
def lookupName (d : List (List Char × Nat)) (n : List Char) : Option Nat :=
  match d with
  | [] => none
  | (k, v) :: rest => if k = n then some v else lookupName rest n

/-- Python `dict[name] = mtime` (overwrite or append). -/
def insertName (n : List Char) (m : Nat) : List (List Char × Nat) → List (List Char × Nat)
  | [] => [(n, m)]
  | (k, v) :: rest => if k = n then (n, m) :: rest else (k, v) :: insertName n m rest

/-- The `current_mtimes` dict built by the loop in `_pdfs_changed`. -/
def mtimesOf (listing : List (List Char × Nat)) : List (List Char × Nat) :=
  listing.foldl (fun d p => insertName p.1 p.2 d) []

/-- Python set equality between two name collections. -/
def setEqB (a b : List (List Char)) : Bool :=
  decide ((∀ x ∈ a, x ∈ b) ∧ ∀ x ∈ b, x ∈ a)

/-- `DocumentManager._pdfs_changed`, as a pure function of the current
directory listing (name, mtime pairs) and the tracking state: `changed` is
set when some listed file's name is missing from `_pdf_mtimes` or its stored
mtime differs (`dict.get(name) != mtime` covers both), or when the name set
differs from `_known_pdfs`; the snapshot is replaced only under
`if changed`. -/
def pdfsChanged (listing : List (List Char × Nat)) (st : TrackerState) : Bool × TrackerState :=
  let currentPdfs := listing.map Prod.fst
  let currentMtimes := mtimesOf listing
  let changed :=
    (listing.any fun p => !decide (lookupName st.pdfMtimes p.1 = some p.2))
      || !setEqB st.knownPdfs currentPdfs
  if changed then (true, ⟨currentPdfs, currentMtimes⟩) else (false, st)

/-- `DocumentManager.has_changes` just delegates to `_pdfs_changed`. -/
def hasChanges (listing : List (List Char × Nat)) (st : TrackerState) : Bool × TrackerState :=
  pdfsChanged listing st

/-! ## `vector_optimization.py` — `VectorStoreCache` -/

/-- One PDF file as `_calculate_content_hash` observes it: its name and the
decimal renderings of `stat().st_size` and `stat().st_mtime` that the
f-string interpolates. -/
structure PdfStat where
  name : List Char
  size : List Char
  mtime : List Char
deriving DecidableEq, Repr

/-- The bytes `f"{pdf_file.name}:{stat.st_size}:{stat.st_mtime}"` feeds to
`hash_md5.update` for one file. -/
def statEntry (f : PdfStat) : List Char :=
  f.name ++ ':' :: f.size ++ ':' :: f.mtime

/-- Python `str` comparison (lexicographic by code point), as `sorted` uses
on the globbed paths (they share the directory prefix, so this is comparison
of the file names). -/
def strLe : List Char → List Char → Bool
  | [], _ => true
  | _ :: _, [] => false
  | a :: as, b :: bs => if a = b then strLe as bs else decide (a.toNat < b.toNat)

/-- `sorted(pdf_path.glob("*.pdf"))`. -/
def sortByName (l : List PdfStat) : List PdfStat :=
  l.insertionSort fun a b => strLe a.name b.name = true

/-- The full byte stream `_calculate_content_hash` feeds to MD5: the entry of
every PDF file in sorted name order, then the raw content of the urls file if
it exists.  The MD5 digest itself is not modelled; two listings get the same
digest exactly when they produce the same stream (up to MD5 collisions), so
claims about fingerprint equality are settled on the stream. -/
def contentFingerprint (listing : List PdfStat) (urls : Option (List Char)) : List Char :=
  ((sortByName listing).map statEntry).flatten ++
    (match urls with | none => [] | some content => content)

/-- The persisted `metadata.json` as `_load_metadata` observes it: absent,
unreadable (any exception while reading/parsing, caught and logged), or
readable with an optional `content_hash` key. -/
inductive MetadataFile where
  | absent : MetadataFile
  | unreadable : MetadataFile
  | readable : (contentHash : Option (List Char)) → MetadataFile
deriving DecidableEq, Repr

/-- `VectorStoreCache._load_metadata`. -/
def loadMetadata : MetadataFile → Option (Option (List Char))
  | .absent => none
  | .unreadable => none
  | .readable h => some h

/-- `VectorStoreCache.is_cache_valid`: no metadata means invalid; otherwise
compare the stored hash to the freshly computed one. -/
def isCacheValid (mf : MetadataFile) (listing : List PdfStat) (urls : Option (List Char)) : Bool :=
  match loadMetadata mf with
  | none => false
  | some stored => decide (stored = some (contentFingerprint listing urls))

/-- The serialized FAISS index as `load_vectorstore` observes it: absent,
failing to deserialize (`FAISS.load_local` raises, caught), or good — the
index itself abstracted to an identifier. -/
inductive IndexFile where
  | missing : IndexFile
  | corrupt : IndexFile
  | good : Nat → IndexFile
deriving DecidableEq, Repr

/-- `VectorStoreCache.load_vectorstore`: `None` when the index directory does
not exist or deserialization raises; the metadata is only read for logging. -/
def loadVectorstore : IndexFile → MetadataFile → Option Nat
  | .missing, _ => none
  | .corrupt, _ => none
  | .good v, _ => some v

/-! ## Lemmas: `pyStrip` -/

theorem mem_dropWhile_of_not {p : Char → Bool} {c : Char} :
    ∀ {l : List Char}, c ∈ l → p c = false → c ∈ l.dropWhile p
  | a :: as, h, hc => by
    by_cases ha : p a
    · simp only [List.dropWhile_cons, ha, if_true]
      rcases List.mem_cons.mp h with rfl | h'
      · rw [hc] at ha; cases ha
      · exact mem_dropWhile_of_not h' hc
    · simpa [List.dropWhile_cons, ha] using h

theorem pyStrip_sublist (l : List Char) : List.Sublist (pyStrip l) l := by
  have h1 : List.Sublist (l.dropWhile isPyWS) l := List.dropWhile_sublist _
  have h2 : List.Sublist (((l.dropWhile isPyWS).reverse).dropWhile isPyWS)
      ((l.dropWhile isPyWS).reverse) := List.dropWhile_sublist _
  have h3 : List.Sublist (pyStrip l) (l.dropWhile isPyWS) := by
    simpa [pyStrip] using h2.reverse
  exact h3.trans h1

theorem pyStrip_length_le (l : List Char) : (pyStrip l).length ≤ l.length :=
  (pyStrip_sublist l).length_le

theorem mem_of_mem_pyStrip {c : Char} {l : List Char} (h : c ∈ pyStrip l) : c ∈ l :=
  (pyStrip_sublist l).subset h

theorem mem_pyStrip_of_not_ws {c : Char} {l : List Char}
    (h : c ∈ l) (hc : isPyWS c = false) : c ∈ pyStrip l := by
  unfold pyStrip
  have h1 : c ∈ l.dropWhile isPyWS := mem_dropWhile_of_not h hc
  have h2 : c ∈ (l.dropWhile isPyWS).reverse := List.mem_reverse.mpr h1
  have h3 : c ∈ ((l.dropWhile isPyWS).reverse).dropWhile isPyWS :=
    mem_dropWhile_of_not h2 hc
  exact List.mem_reverse.mpr h3

theorem pyStrip_eq_nil_ws {l : List Char} (h : pyStrip l = []) :
    ∀ c ∈ l, isPyWS c = true := by
  intro c hc
  by_contra hne
  have : c ∈ pyStrip l := mem_pyStrip_of_not_ws hc (by simpa using hne)
  simp [h] at this

theorem exists_nonws_of_pyStrip_ne_nil {l : List Char} (h : pyStrip l ≠ []) :
    ∃ c ∈ l, isPyWS c = false := by
  by_contra hall
  push_neg at hall
  apply h
  unfold pyStrip
  have hd : l.dropWhile isPyWS = [] := by
    refine List.dropWhile_eq_nil_iff.mpr ?_
    intro c hc
    have := hall c hc
    simpa using this
  simp [hd]

/-! ## Lemmas: `joinSep` and the running total of `_merge_splits` -/

/-- The joined length of `current_doc` when the separator has length
`sepLen`: this is the quantity `total` tracks in `_merge_splits`. -/
def sepWeight (sepLen : Nat) : List (List Char) → Nat
  | [] => 0
  | c :: rest => c.length + (if rest.isEmpty then 0 else sepLen) + sepWeight sepLen rest

theorem joinSep_length (sep : List Char) :
    ∀ l : List (List Char), (joinSep sep l).length = sepWeight sep.length l
  | [] => rfl
  | c :: rest => by
    simp only [joinSep, sepWeight, List.length_append]
    rw [joinSep_length sep rest]
    by_cases h : rest.isEmpty <;> simp [h]

theorem joinSep_nil_sep : ∀ l : List (List Char), joinSep [] l = l.flatten
  | [] => rfl
  | c :: rest => by
    simp only [joinSep, List.flatten_cons]
    rw [joinSep_nil_sep rest]
    by_cases h : rest.isEmpty <;> simp [h]

theorem sepWeight_append_single (k : Nat) (d : List Char) :
    ∀ cur : List (List Char),
      sepWeight k (cur ++ [d]) =
        sepWeight k cur + d.length + (if cur.isEmpty then 0 else k)
  | [] => by simp [sepWeight]
  | c :: rest => by
    have IH := sepWeight_append_single k d rest
    by_cases h : rest = []
    · subst h
      simp [sepWeight]
      omega
    · have h1 : rest.isEmpty = false := by simpa [List.isEmpty_iff] using h
      have h2 : (rest ++ [d]).isEmpty = false := by simp [List.isEmpty_iff]
      show sepWeight k (c :: (rest ++ [d])) = _
      simp only [sepWeight, h1, h2, if_false, IH, List.isEmpty_cons]
      omega

theorem mergePop_spec (B O sL dL : Nat) :
    ∀ (cur : List (List Char)) (total : Nat), total = sepWeight sL cur →
      (mergePop B O sL dL cur total).2 = sepWeight sL (mergePop B O sL dL cur total).1 ∧
      ((mergePop B O sL dL cur total).2 = 0 ∨
        (mergePop B O sL dL cur total).2 + dL +
          (if (mergePop B O sL dL cur total).1.isEmpty then 0 else sL) ≤ B)
  | [], total, h => by
    simp only [mergePop]
    exact ⟨h, Or.inl (by simpa [sepWeight] using h)⟩
  | c :: cs, total, h => by
    by_cases hc : O < total ∨ (B < total + dL + sL ∧ 0 < total)
    · have hrec := mergePop_spec B O sL dL cs
        (total - (c.length + if cs.isEmpty then 0 else sL))
        (by
          rw [h]
          show sepWeight sL (c :: cs) - _ = _
          simp only [sepWeight, List.isEmpty_cons]
          omega)
      simpa only [mergePop, if_pos hc] using hrec
    · have hc2 := hc
      push_neg at hc2
      constructor
      · simp only [mergePop, if_neg hc]
        exact h
      · simp only [mergePop, if_neg hc, List.isEmpty_cons, Bool.false_eq_true, if_false]
        rcases Nat.eq_zero_or_pos total with h0 | hpos
        · exact Or.inl h0
        · refine Or.inr ?_
          by_contra hgt
          have : B < total + dL + sL := by omega
          have := hc2.2 this
          omega

theorem joinDocs_mem_length {sep : List Char} {cur : List (List Char)} {t : List Char}
    (h : t ∈ (joinDocs sep cur).toList) : t.length ≤ sepWeight sep.length cur := by
  simp only [joinDocs] at h
  by_cases he : (pyStrip (joinSep sep cur)).isEmpty
  · simp [he] at h
  · simp only [he, if_false, Bool.false_eq_true, Option.toList_some, List.mem_singleton] at h
    subst h
    calc (pyStrip (joinSep sep cur)).length ≤ (joinSep sep cur).length :=
          pyStrip_length_le _
      _ = sepWeight sep.length cur := joinSep_length sep cur

theorem mergeGo_length_le (B O : Nat) :
    ∀ (ds cur : List (List Char)) (total : Nat),
      (∀ s ∈ ds, s.length ≤ B) → total = sepWeight 0 cur → total ≤ B →
      ∀ c ∈ mergeGo B O [] ds cur total, c.length ≤ B
  | [], cur, total, hds, hw, hb, c, hc => by
    simp only [mergeGo] at hc
    have h1 : c.length ≤ sepWeight 0 cur := by
      simpa using joinDocs_mem_length hc
    omega
  | d :: ds, cur, total, hds, hw, hb, c, hc => by
    have hd : d.length ≤ B := hds d (by simp)
    have hds' : ∀ s ∈ ds, s.length ≤ B := fun s hs => hds s (by simp [hs])
    simp only [mergeGo, List.length_nil, ite_self, Nat.add_zero] at hc
    by_cases hov : B < total + d.length
    · rw [if_pos hov] at hc
      by_cases hcur : cur.isEmpty
      · rw [if_pos hcur] at hc
        have hcur' : cur = [] := List.isEmpty_iff.mp hcur
        subst hcur'
        have htot : total = 0 := by simpa [sepWeight] using hw
        exact mergeGo_length_le B O ds [d] (total + d.length) hds'
          (by simp [sepWeight, htot]) (by omega) c hc
      · rw [if_neg hcur] at hc
        rcases List.mem_append.mp hc with hL | hR
        · have h1 : c.length ≤ sepWeight 0 cur := by
            simpa using joinDocs_mem_length hL
          omega
        · have hp := mergePop_spec B O 0 d.length cur total hw
          set p := mergePop B O 0 d.length cur total with hpdef
          have hw' : p.2 + d.length =
              sepWeight 0 (p.1 ++ [d]) := by
            rw [sepWeight_append_single, ← hp.1]
            split <;> omega
          have hb' : p.2 + d.length ≤ B := by
            rcases hp.2 with h0 | hle
            · omega
            · revert hle
              split <;> omega
          exact mergeGo_length_le B O ds (p.1 ++ [d]) (p.2 + d.length) hds' hw' hb' c hR
    · rw [if_neg hov] at hc
      exact mergeGo_length_le B O ds (cur ++ [d]) (total + d.length) hds'
        (by rw [sepWeight_append_single, ← hw]; split <;> omega)
        (by omega) c hc

/-- Every chunk `_merge_splits` emits (with the empty merge separator that
`keep_separator=True` forces) fits the budget, provided every incoming split
does. -/
theorem mergeSplits_length_le {B O : Nat} {splits : List (List Char)}
    (h : ∀ s ∈ splits, s.length ≤ B) :
    ∀ c ∈ mergeSplits B O [] splits, c.length ≤ B :=
  mergeGo_length_le B O splits [] 0 h (by simp [sepWeight]) (Nat.zero_le B)

theorem joinDocs_eq_none_ws {sep : List Char} {cur : List (List Char)}
    (h : (joinDocs sep cur).toList = []) (hsep : sep = []) :
    ∀ s ∈ cur, ∀ ch ∈ s, isPyWS ch = true := by
  subst hsep
  simp only [joinDocs] at h
  by_cases he : (pyStrip (joinSep [] cur)).isEmpty
  · have hnil : pyStrip (joinSep [] cur) = [] := List.isEmpty_iff.mp he
    have hws := pyStrip_eq_nil_ws hnil
    rw [joinSep_nil_sep] at hws
    intro s hs ch hch
    exact hws ch (List.mem_flatten.mpr ⟨s, hs, hch⟩)
  · simp [he] at h

theorem mergeGo_eq_nil_ws (B O : Nat) :
    ∀ (ds cur : List (List Char)) (total : Nat),
      mergeGo B O [] ds cur total = [] →
      (∀ s ∈ ds, ∀ ch ∈ s, isPyWS ch = true) ∧
        (∀ s ∈ cur, ∀ ch ∈ s, isPyWS ch = true)
  | [], cur, total, h => by
    simp only [mergeGo] at h
    exact ⟨by simp, joinDocs_eq_none_ws h rfl⟩
  | d :: ds, cur, total, h => by
    simp only [mergeGo, List.length_nil, ite_self, Nat.add_zero] at h
    by_cases hov : B < total + d.length
    · rw [if_pos hov] at h
      by_cases hcur : cur.isEmpty
      · rw [if_pos hcur] at h
        have hcur' : cur = [] := List.isEmpty_iff.mp hcur
        subst hcur'
        have IH := mergeGo_eq_nil_ws B O ds [d] (total + d.length) h
        refine ⟨?_, by simp⟩
        intro s hs
        rcases List.mem_cons.mp hs with rfl | hs'
        · exact IH.2 s (by simp)
        · exact IH.1 s hs'
      · rw [if_neg hcur] at h
        rcases List.append_eq_nil.mp h with ⟨hL, hR⟩
        have hcurws := joinDocs_eq_none_ws hL rfl
        have IH := mergeGo_eq_nil_ws B O ds _ _ hR
        refine ⟨?_, hcurws⟩
        intro s hs
        rcases List.mem_cons.mp hs with rfl | hs'
        · exact IH.2 s (by simp)
        · exact IH.1 s hs'
    · rw [if_neg hov] at h
      have IH := mergeGo_eq_nil_ws B O ds (cur ++ [d]) (total + d.length) h
      constructor
      · intro s hs
        rcases List.mem_cons.mp hs with rfl | hs'
        · exact IH.2 s (by simp)
        · exact IH.1 s hs'
      · intro s hs
        exact IH.2 s (by simp [hs])

/-- If `_merge_splits` (empty merge separator) returns no chunks, every
character of every incoming split was whitespace. -/
theorem mergeSplits_eq_nil_ws {B O : Nat} {splits : List (List Char)}
    (h : mergeSplits B O [] splits = []) :
    ∀ s ∈ splits, ∀ ch ∈ s, isPyWS ch = true :=
  (mergeGo_eq_nil_ws B O splits [] 0 h).1

/-! ## Lemmas: `buildChunks` and `splitTextRec` -/

theorem buildChunks_length_le (B O : Nat) (withRec : Bool) :
    ∀ (items : List (List Char × List (List Char))) (good : List (List Char)),
      (∀ g ∈ good, g.length ≤ B) →
      (withRec = false → ∀ p ∈ items, p.1.length ≤ B) →
      (withRec = true → ∀ p ∈ items, ∀ c ∈ p.2, c.length ≤ B) →
      ∀ c ∈ buildChunks B O withRec items good, c.length ≤ B
  | [], good, hg, h1, h2, c, hc => by
    simp only [buildChunks] at hc
    by_cases he : good.isEmpty
    · simp [he] at hc
    · rw [if_neg he] at hc
      exact mergeSplits_length_le hg c hc
  | (sp, r) :: items, good, hg, h1, h2, c, hc => by
    simp only [buildChunks] at hc
    by_cases hsp : sp.length < B
    · rw [if_pos hsp] at hc
      refine buildChunks_length_le B O withRec items (good ++ [sp]) ?_ ?_ ?_ c hc
      · intro g hgm
        rcases List.mem_append.mp hgm with hgm | hgm
        · exact hg g hgm
        · simp only [List.mem_singleton] at hgm
          subst hgm
          omega
      · exact fun hw p hp => h1 hw p (by simp [hp])
      · exact fun hw p hp => h2 hw p (by simp [hp])
    · rw [if_neg hsp] at hc
      rcases List.mem_append.mp hc with hc' | hrec
      · rcases List.mem_append.mp hc' with hflush | hmid
        · by_cases he : good.isEmpty
          · simp [he] at hflush
          · rw [if_neg he] at hflush
            exact mergeSplits_length_le hg c hflush
        · cases withRec with
          | true =>
            rw [if_pos rfl] at hmid
            exact h2 rfl (sp, r) (by simp) c hmid
          | false =>
            simp only [Bool.false_eq_true, if_false, List.mem_singleton] at hmid
            exact hmid ▸ h1 rfl (sp, r) (by simp)
      · exact buildChunks_length_le B O withRec items [] (by simp)
          (fun hw p hp => h1 hw p (by simp [hp]))
          (fun hw p hp => h2 hw p (by simp [hp])) c hrec

theorem mem_splitChars {text : List Char} {sp : List Char}
    (h : sp ∈ splitChars text) : ∃ ch ∈ text, sp = [ch] := by
  simp only [splitChars, List.mem_map] at h
  rcases h with ⟨ch, hch, rfl⟩
  exact ⟨ch, hch, rfl⟩

/-- Every chunk `_split_text` produces fits the budget, for any separator
list that contains the empty separator (as all separator lists in this
repository do) and any positive budget. -/
theorem splitTextRec_length_le (B O : Nat) :
    ∀ (seps : List (List Char)) (text : List Char),
      [] ∈ seps → 1 ≤ B →
      ∀ c ∈ splitTextRec B O seps text, c.length ≤ B
  | [], text, hmem, hB, c, hc => absurd hmem (by simp)
  | s :: rest, text, hmem, hB, c, hc => by
    simp only [splitTextRec] at hc
    by_cases hs : s.isEmpty
    · rw [if_pos hs] at hc
      refine buildChunks_length_le B O false _ [] (by simp) ?_ (by simp) c hc
      intro _ p hp
      simp only [List.mem_map] at hp
      rcases hp with ⟨sp, hsp, rfl⟩
      rcases mem_splitChars hsp with ⟨ch, _, rfl⟩
      simpa using hB
    · rw [if_neg hs] at hc
      have hrest : [] ∈ rest := by
        rcases List.mem_cons.mp hmem with h | h
        · exact absurd h.symm (by simpa [List.isEmpty_iff] using hs)
        · exact h
      have hrestne : rest.isEmpty = false := by
        rcases rest with _ | _
        · simp at hrest
        · rfl
      by_cases hoc : occursIn s text
      · rw [if_pos hoc] at hc
        rw [hrestne] at hc
        refine buildChunks_length_le B O true _ [] (by simp) (by simp) ?_ c hc
        intro _ p hp
        simp only [List.mem_map] at hp
        rcases hp with ⟨sp, hsp, rfl⟩
        exact splitTextRec_length_le B O rest sp hrest hB
      · rw [if_neg hoc] at hc
        rw [hrestne] at hc
        simp only [Bool.false_eq_true, if_false] at hc
        exact splitTextRec_length_le B O rest text hrest hB c hc

/-! ## Lemmas: splitting preserves the text -/

theorem leadsWith_eq : ∀ (sep l : List Char), leadsWith sep l = true →
    l = sep ++ l.drop sep.length
  | [], l, _ => rfl
  | p :: ps, [], h => by simp [leadsWith] at h
  | p :: ps, c :: cs, h => by
    simp only [leadsWith, Bool.and_eq_true, beq_iff_eq] at h
    rcases h with ⟨rfl, h2⟩
    have := leadsWith_eq ps cs h2
    simpa [List.length_cons] using congrArg (p :: ·) this

theorem findSep_eq (sep : List Char) :
    ∀ (text a b : List Char), findSep sep text = some (a, b) → text = a ++ sep ++ b
  | [], a, b, h => by simp [findSep] at h
  | c :: cs, a, b, h => by
    simp only [findSep] at h
    by_cases hl : leadsWith sep (c :: cs)
    · rw [if_pos hl] at h
      simp only [Option.some.injEq, Prod.mk.injEq] at h
      rcases h with ⟨rfl, rfl⟩
      simpa using leadsWith_eq sep (c :: cs) hl
    · rw [if_neg hl] at h
      rcases hrec : findSep sep cs with _ | ⟨a', b'⟩
      · rw [hrec] at h
        simp at h
      · rw [hrec] at h
        simp only [Option.some.injEq, Prod.mk.injEq] at h
        rcases h with ⟨rfl, rfl⟩
        have := findSep_eq sep cs a' b' hrec
        simp [this]

theorem splitOnAux_ne_nil (sep : List Char) (fuel : Nat) (text : List Char) :
    splitOnAux sep fuel text ≠ [] := by
  cases fuel with
  | zero => simp [splitOnAux]
  | succ n =>
    simp only [splitOnAux]
    rcases findSep sep text with _ | ⟨a, b⟩ <;> simp

theorem splitOnAux_join (sep : List Char) :
    ∀ (fuel : Nat) (text : List Char), joinSep sep (splitOnAux sep fuel text) = text
  | 0, text => by simp [splitOnAux, joinSep]
  | fuel + 1, text => by
    simp only [splitOnAux]
    rcases hrec : findSep sep text with _ | ⟨a, b⟩
    · simp [joinSep]
    · have hne : (splitOnAux sep fuel b).isEmpty = false := by
        have := splitOnAux_ne_nil sep fuel b
        rcases h : splitOnAux sep fuel b with _ | _
        · exact absurd h this
        · rfl
      simp only [joinSep, hne, Bool.false_eq_true, if_false]
      rw [splitOnAux_join sep fuel b]
      exact (findSep_eq sep text a b hrec).symm

theorem splitOnSep_join (sep text : List Char) :
    joinSep sep (splitOnSep sep text) = text :=
  splitOnAux_join sep text.length text

theorem flatten_filter_ne_nil :
    ∀ l : List (List Char), (l.filter (fun x => !x.isEmpty)).flatten = l.flatten
  | [] => rfl
  | x :: xs => by
    by_cases hx : x.isEmpty
    · have hx' : x = [] := List.isEmpty_iff.mp hx
      simp [List.filter_cons, hx, hx', flatten_filter_ne_nil xs]
    · have hx' : x.isEmpty = false := by simpa using hx
      simp [List.filter_cons, hx', flatten_filter_ne_nil xs]

theorem flatten_map_consSep (sep : List Char) :
    ∀ ps : List (List Char),
      (ps.map (fun q => sep ++ q)).flatten =
        (if ps.isEmpty then [] else sep) ++ joinSep sep ps
  | [] => rfl
  | q :: qs => by
    simp only [List.map_cons, List.flatten_cons, flatten_map_consSep sep qs,
      List.isEmpty_cons, Bool.false_eq_true, if_false, joinSep]
    by_cases hqs : qs.isEmpty
    · have : qs = [] := List.isEmpty_iff.mp hqs
      subst this
      simp [joinSep]
    · have h' : qs.isEmpty = false := by simpa using hqs
      simp [h', List.append_assoc]

theorem splitKeepSep_flatten (sep text : List Char) :
    (splitKeepSep sep text).flatten = text := by
  unfold splitKeepSep
  rw [flatten_filter_ne_nil]
  rcases h : splitOnSep sep text with _ | ⟨p, ps⟩
  · exact absurd h (splitOnAux_ne_nil sep text.length text)
  · have hj := splitOnSep_join sep text
    rw [h] at hj
    simp only [List.flatten_cons, flatten_map_consSep sep ps]
    simp only [joinSep] at hj
    simpa using hj

theorem splitChars_flatten : ∀ text : List Char, (splitChars text).flatten = text
  | [] => rfl
  | c :: cs => by
    have IH := splitChars_flatten cs
    simp only [splitChars] at IH ⊢
    simp [IH]

theorem mem_splitKeepSep_ne_nil {sep text sp : List Char}
    (h : sp ∈ splitKeepSep sep text) : sp ≠ [] := by
  unfold splitKeepSep at h
  have := List.of_mem_filter h
  simpa [List.isEmpty_iff] using this

/-! ## Lemmas: empty output means all-whitespace input -/

theorem buildChunks_eq_nil_ws (B O : Nat) (withRec : Bool) :
    ∀ (items : List (List Char × List (List Char))) (good : List (List Char)),
      buildChunks B O withRec items good = [] →
      (∀ p ∈ items, p.1 ≠ []) →
      (∀ g ∈ good, ∀ ch ∈ g, isPyWS ch = true) ∧
      ∀ p ∈ items,
        (p.1.length < B → ∀ ch ∈ p.1, isPyWS ch = true) ∧
        (B ≤ p.1.length → withRec = true ∧ p.2 = [])
  | [], good, h, hne => by
    simp only [buildChunks] at h
    refine ⟨?_, by simp⟩
    by_cases he : good.isEmpty
    · have : good = [] := List.isEmpty_iff.mp he
      simp [this]
    · rw [if_neg he] at h
      exact mergeSplits_eq_nil_ws h
  | (sp, r) :: items, good, h, hne => by
    simp only [buildChunks] at h
    by_cases hsp : sp.length < B
    · rw [if_pos hsp] at h
      have IH := buildChunks_eq_nil_ws B O withRec items (good ++ [sp]) h
        (fun q hq => hne q (by simp [hq]))
      refine ⟨fun g hg => IH.1 g (by simp [hg]), ?_⟩
      intro p hp
      rcases List.mem_cons.mp hp with rfl | hp'
      · refine ⟨fun _ => IH.1 sp (by simp), fun hge => ?_⟩
        have : B ≤ sp.length := hge
        omega
      · exact IH.2 p hp'
    · rw [if_neg hsp] at h
      rcases List.append_eq_nil.mp h with ⟨h', hrec⟩
      rcases List.append_eq_nil.mp h' with ⟨hflush, hmid⟩
      have IH := buildChunks_eq_nil_ws B O withRec items [] hrec
        (fun q hq => hne q (by simp [hq]))
      have hgood : ∀ g ∈ good, ∀ ch ∈ g, isPyWS ch = true := by
        by_cases he : good.isEmpty
        · have : good = [] := List.isEmpty_iff.mp he
          simp [this]
        · rw [if_neg he] at hflush
          exact mergeSplits_eq_nil_ws hflush
      refine ⟨hgood, ?_⟩
      intro p hp
      rcases List.mem_cons.mp hp with rfl | hp'
      · refine ⟨fun hlt => absurd hlt hsp, fun _ => ?_⟩
        cases withRec with
        | true =>
          rw [if_pos rfl] at hmid
          exact ⟨rfl, hmid⟩
        | false =>
          simp only [Bool.false_eq_true, if_false] at hmid
          exact absurd (List.cons_ne_nil sp []) (by simp [hmid])
      · exact IH.2 p hp'

/-- If `_split_text` returns no chunks at all, the input text was pure
whitespace. -/
theorem splitTextRec_eq_nil_ws (B O : Nat) :
    ∀ (seps : List (List Char)) (text : List Char),
      splitTextRec B O seps text = [] → ∀ ch ∈ text, isPyWS ch = true
  | [], text, h => by simp [splitTextRec] at h
  | s :: rest, text, h => by
    simp only [splitTextRec] at h
    by_cases hs : s.isEmpty
    · rw [if_pos hs] at h
      have hws := buildChunks_eq_nil_ws B O false _ [] h ?_
      · intro ch hch
        have hsp : ([ch], ([] : List (List Char))) ∈
            (splitChars text).map (fun sp => (sp, ([] : List (List Char)))) := by
          simp only [List.mem_map]
          exact ⟨[ch], by simp [splitChars, hch], rfl⟩
        have := hws.2 _ hsp
        by_cases hlen : (1 : Nat) < B
        · exact (this.1 (by simpa using hlen)) ch (by simp)
        · rcases (this.2 (by simpa using hlen)) with ⟨hfalse, _⟩
          cases hfalse
      · intro p hp
        simp only [List.mem_map] at hp
        rcases hp with ⟨sp, hsp, rfl⟩
        rcases mem_splitChars hsp with ⟨c, _, rfl⟩
        simp
    · rw [if_neg hs] at h
      by_cases hoc : occursIn s text
      · rw [if_pos hoc] at h
        have hws := buildChunks_eq_nil_ws B O (!rest.isEmpty) _ [] h ?_
        · intro ch hch
          have hch' : ch ∈ (splitKeepSep s text).flatten := by
            rw [splitKeepSep_flatten]
            exact hch
          rcases List.mem_flatten.mp hch' with ⟨sp, hsp, hmem⟩
          have hitem : (sp, splitTextRec B O rest sp) ∈
              (splitKeepSep s text).map (fun sp => (sp, splitTextRec B O rest sp)) := by
            simp only [List.mem_map]
            exact ⟨sp, hsp, rfl⟩
          have hprops := hws.2 _ hitem
          by_cases hlen : sp.length < B
          · exact hprops.1 hlen ch hmem
          · have hrnil := (hprops.2 (by show B ≤ sp.length; omega)).2
            exact splitTextRec_eq_nil_ws B O rest sp hrnil ch hmem
        · intro p hp
          simp only [List.mem_map] at hp
          rcases hp with ⟨sp, hsp, rfl⟩
          exact mem_splitKeepSep_ne_nil hsp
      · rw [if_neg hoc] at h
        by_cases hre : rest.isEmpty
        · rw [if_pos hre] at h
          have hws := buildChunks_eq_nil_ws B O false _ [] h ?_
          · intro ch hch
            have hch' : ch ∈ (splitKeepSep s text).flatten := by
              rw [splitKeepSep_flatten]
              exact hch
            rcases List.mem_flatten.mp hch' with ⟨sp, hsp, hmem⟩
            have hitem : (sp, ([] : List (List Char))) ∈
                (splitKeepSep s text).map (fun sp => (sp, ([] : List (List Char)))) := by
              simp only [List.mem_map]
              exact ⟨sp, hsp, rfl⟩
            have hprops := hws.2 _ hitem
            by_cases hlen : sp.length < B
            · exact hprops.1 hlen ch hmem
            · rcases (hprops.2 (by show B ≤ sp.length; omega)) with ⟨hfalse, _⟩
              cases hfalse
          · intro p hp
            simp only [List.mem_map] at hp
            rcases hp with ⟨sp, hsp, rfl⟩
            exact mem_splitKeepSep_ne_nil hsp
        · rw [if_neg hre] at h
          exact splitTextRec_eq_nil_ws B O rest text h

/-! ## Lemmas: `chunkOne` / `chunkDocuments` -/

theorem chunkOne_small {B O : Nat} {d : Doc} (h : d.content.length ≤ B) :
    chunkOne B O d = [d] := by
  simp [chunkOne, h]

theorem chunkOne_map_content {B O : Nat} {d : Doc} (h : B < d.content.length) :
    (chunkOne B O d).map Doc.content = splitTextRec B O pdfSeparators d.content := by
  simp only [chunkOne, if_neg (by omega : ¬ d.content.length ≤ B), List.map_map]
  have : (Doc.content ∘ fun p : Nat × List Char =>
      (⟨p.2, { d.meta with
        chunkId := some p.1
        totalChunks := some (splitTextRec B O pdfSeparators d.content).length }⟩ : Doc)) =
      Prod.snd := rfl
  rw [this, List.enum_map_snd]

theorem chunkOne_map_chunkId {B O : Nat} {d : Doc} (h : B < d.content.length) :
    (chunkOne B O d).map (fun c => c.meta.chunkId) =
      (List.range (splitTextRec B O pdfSeparators d.content).length).map some := by
  simp only [chunkOne, if_neg (by omega : ¬ d.content.length ≤ B), List.map_map]
  have : ((fun c : Doc => c.meta.chunkId) ∘ fun p : Nat × List Char =>
      (⟨p.2, { d.meta with
        chunkId := some p.1
        totalChunks := some (splitTextRec B O pdfSeparators d.content).length }⟩ : Doc)) =
      (some ∘ Prod.fst) := rfl
  rw [this, ← List.map_map, List.enum_map_fst]

theorem chunkOne_map_totalChunks {B O : Nat} {d : Doc} (h : B < d.content.length) :
    (chunkOne B O d).map (fun c => c.meta.totalChunks) =
      List.replicate (splitTextRec B O pdfSeparators d.content).length
        (some (splitTextRec B O pdfSeparators d.content).length) := by
  simp only [chunkOne, if_neg (by omega : ¬ d.content.length ≤ B), List.map_map]
  have : ((fun c : Doc => c.meta.totalChunks) ∘ fun p : Nat × List Char =>
      (⟨p.2, { d.meta with
        chunkId := some p.1
        totalChunks := some (splitTextRec B O pdfSeparators d.content).length }⟩ : Doc)) =
      (fun _ => some (splitTextRec B O pdfSeparators d.content).length) := rfl
  rw [this, List.map_const', List.enum_length]

theorem mem_chunkDocuments {B O : Nat} {docs : List Doc} {c : Doc} :
    c ∈ chunkDocuments B O docs ↔ ∃ d ∈ docs, c ∈ chunkOne B O d := by
  simp [chunkDocuments, List.mem_flatten]

theorem empty_mem_pdfSeparators : ([] : List Char) ∈ pdfSeparators := by decide

theorem empty_mem_webSeparators : ([] : List Char) ∈ webSeparators := by decide

/-- C1: with budget `B` and overlap `O < B`, every chunk
`IntelligentPDFChunker.chunk_documents` produces has content length at most
`B` — with this separator list (which ends with the empty separator) there is
no atomic run without a separator, so the documented exception never fires
and the bound is unconditional. -/
theorem chunk_documents_budget (B O : Nat) (docs : List Doc) (hO : O < B) :
    ∀ c ∈ chunkDocuments B O docs, c.content.length ≤ B := by
  intro c hc
  rcases mem_chunkDocuments.mp hc with ⟨d, hd, hcd⟩
  by_cases hlen : d.content.length ≤ B
  · rw [chunkOne_small hlen] at hcd
    simp only [List.mem_singleton] at hcd
    subst hcd
    exact hlen
  · have hmap : c.content ∈ (chunkOne B O d).map Doc.content :=
      List.mem_map.mpr ⟨c, hcd, rfl⟩
    rw [chunkOne_map_content (by omega)] at hmap
    exact splitTextRec_length_le B O pdfSeparators d.content
      empty_mem_pdfSeparators (by omega) c.content hmap

/-- Witness for C1 at a concrete input. -/
theorem chunk_documents_budget_witness :
    (1 : Nat) < 2 ∧
      (⟨"ab".toList, ⟨"p".toList, none, none, false⟩⟩ : Doc) ∈
        chunkDocuments 2 1
          ([⟨"ab".toList, ⟨"p".toList, none, none, false⟩⟩] : List Doc) ∧
      (⟨"ab".toList, ⟨"p".toList, none, none, false⟩⟩ : Doc).content.length ≤ 2 :=
  ⟨by decide, by decide,
    chunk_documents_budget 2 1
      ([⟨"ab".toList, ⟨"p".toList, none, none, false⟩⟩] : List Doc) (by decide)
      (⟨"ab".toList, ⟨"p".toList, none, none, false⟩⟩ : Doc) (by decide)⟩

theorem chunkOne_length_big {B O : Nat} {d : Doc} (h : B < d.content.length) :
    (chunkOne B O d).length = (splitTextRec B O pdfSeparators d.content).length := by
  have := congrArg List.length (chunkOne_map_content (B := B) (O := O) (d := d) h)
  simpa using this

/-- C3 counterexample: a document whose content fits the budget passes
through `chunk_documents` as a single chunk carrying no `chunk_id` and no
`total_chunks` metadata key, so not every emitted chunk carries them. -/
theorem chunk_metadata_counterexample :
    chunkDocuments 1000 200
        ([⟨"hi".toList, ⟨"p".toList, none, none, false⟩⟩] : List Doc) =
      ([⟨"hi".toList, ⟨"p".toList, none, none, false⟩⟩] : List Doc) ∧
    (⟨"hi".toList, ⟨"p".toList, none, none, false⟩⟩ : Doc).meta.chunkId = none ∧
    (⟨"hi".toList, ⟨"p".toList, none, none, false⟩⟩ : Doc).meta.totalChunks = none :=
  ⟨by decide, rfl, rfl⟩

/-- C3 (amended): `chunk_documents` flat-maps its per-document body in order;
a document whose content fits the budget passes through unchanged (keeping
its original metadata, without `chunk_id`/`total_chunks`), while the pieces
of a larger document carry `chunk_id = 0,1,2,…` in emission order and
`total_chunks` equal to the number of pieces produced from that parent. -/
theorem chunk_metadata_amended (B O : Nat) (d : Doc) :
    (d.content.length ≤ B → chunkOne B O d = [d]) ∧
    (B < d.content.length →
      (chunkOne B O d).map (fun c => c.meta.chunkId) =
        (List.range (chunkOne B O d).length).map some ∧
      (chunkOne B O d).map (fun c => c.meta.totalChunks) =
        List.replicate (chunkOne B O d).length (some (chunkOne B O d).length) ∧
      (chunkOne B O d).map Doc.content = splitTextRec B O pdfSeparators d.content) ∧
    (∀ docs : List Doc, chunkDocuments B O docs = (docs.map (chunkOne B O)).flatten) := by
  refine ⟨fun h => chunkOne_small h, fun h => ?_, fun _ => rfl⟩
  rw [chunkOne_length_big h]
  exact ⟨chunkOne_map_chunkId h, chunkOne_map_totalChunks h, chunkOne_map_content h⟩

/-- Witness for the amended C3: both the pass-through case and the split
case at concrete inputs. -/
theorem chunk_metadata_amended_witness :
    ((⟨"hi".toList, ⟨"p".toList, none, none, false⟩⟩ : Doc).content.length ≤ 1000 ∧
      chunkOne 1000 200 (⟨"hi".toList, ⟨"p".toList, none, none, false⟩⟩ : Doc) =
        [(⟨"hi".toList, ⟨"p".toList, none, none, false⟩⟩ : Doc)]) ∧
    (2 < (⟨"abcd".toList, ⟨"p".toList, none, none, false⟩⟩ : Doc).content.length ∧
      (chunkOne 2 1 (⟨"abcd".toList, ⟨"p".toList, none, none, false⟩⟩ : Doc)).map
          (fun c => c.meta.chunkId) =
        (List.range
          (chunkOne 2 1 (⟨"abcd".toList, ⟨"p".toList, none, none, false⟩⟩ : Doc)).length).map
          some) :=
  ⟨⟨by decide,
      (chunk_metadata_amended 1000 200 (⟨"hi".toList, ⟨"p".toList, none, none, false⟩⟩ : Doc)).1
        (by decide)⟩,
    ⟨by decide,
      ((chunk_metadata_amended 2 1 (⟨"abcd".toList, ⟨"p".toList, none, none, false⟩⟩ : Doc)).2.1
        (by decide)).1⟩⟩

/-! ## Lemmas: `load_all_documents` (C2) -/

theorem dropWhile_eq_self_of_length_eq {p : Char → Bool} :
    ∀ l : List Char, (l.dropWhile p).length = l.length → l.dropWhile p = l
  | [], _ => rfl
  | c :: cs, h => by
    by_cases hc : p c
    · exfalso
      rw [List.dropWhile_cons, if_pos hc] at h
      have := (List.dropWhile_sublist (l := cs) (p := p)).length_le
      simp only [List.length_cons] at h
      omega
    · rw [List.dropWhile_cons, if_neg hc]

theorem head_not_ws_of_pyStrip_eq {e : List Char} {c : Char} {cs : List Char}
    (hstrip : pyStrip e = e) (he : e = c :: cs) : isPyWS c = false := by
  have hlen : (pyStrip e).length = e.length := by rw [hstrip]
  have h1 : (e.dropWhile isPyWS).length = e.length := by
    have hchain1 : (pyStrip e).length ≤ (e.dropWhile isPyWS).length := by
      unfold pyStrip
      have h2 : List.Sublist (((e.dropWhile isPyWS).reverse).dropWhile isPyWS)
          ((e.dropWhile isPyWS).reverse) := List.dropWhile_sublist _
      simpa using h2.length_le
    have hchain2 : (e.dropWhile isPyWS).length ≤ e.length :=
      (List.dropWhile_sublist _).length_le
    omega
  have hdw : e.dropWhile isPyWS = e := dropWhile_eq_self_of_length_eq e h1
  subst he
  by_cases hc : isPyWS c
  · exfalso
    rw [List.dropWhile_cons, if_pos hc] at hdw
    have := congrArg List.length hdw
    have hle := (List.dropWhile_sublist (l := cs) (p := isPyWS)).length_le
    simp only [List.length_cons] at this
    omega
  · simpa using hc

theorem pyStrip_ne_nil_exists_nonws {t : List Char} (h : pyStrip t ≠ []) :
    ∃ c ∈ pyStrip t, isPyWS c = false := by
  rcases exists_nonws_of_pyStrip_ne_nil h with ⟨c, hc, hws⟩
  exact ⟨c, mem_pyStrip_of_not_ws hc hws, hws⟩

/-- If a PDF listing has no parse failure, loading succeeds. -/
theorem loadPdfDocuments_ok : ∀ pdfs : List PdfFileInfo,
    (∀ f ∈ pdfs, f.sections ≠ none) → ∃ docs, loadPdfDocuments pdfs = .ok docs
  | [], _ => ⟨[], rfl⟩
  | f :: fs, h => by
    rcases hsec : f.sections with _ | secs
    · exact absurd hsec (h f (by simp))
    · rcases loadPdfDocuments_ok fs (fun g hg => h g (by simp [hg])) with ⟨docs, hdocs⟩
      refine ⟨(secs.filterMap fun t =>
        let s := pyStrip t
        if s.isEmpty then none
        else some ⟨s, ⟨f.name, none, none, false⟩⟩) ++ docs, ?_⟩
      simp only [loadPdfDocuments, extractPdf, hsec, hdocs]

/-- Any parse failure in the listing makes the whole PDF batch fail: there is
no `try`/`except` in `load_pdf_documents`. -/
theorem loadPdfDocuments_error : ∀ pdfs : List PdfFileInfo,
    (∃ f ∈ pdfs, f.sections = none) → loadPdfDocuments pdfs = .error .pdfParse
  | [], h => by simp at h
  | f :: fs, h => by
    rcases hsec : f.sections with _ | secs
    · simp only [loadPdfDocuments, extractPdf, hsec]
    · have : ∃ g ∈ fs, g.sections = none := by
        rcases h with ⟨g, hg, hgnone⟩
        rcases List.mem_cons.mp hg with rfl | hg'
        · rw [hsec] at hgnone; cases hgnone
        · exact ⟨g, hg', hgnone⟩
      have IH := loadPdfDocuments_error fs this
      simp only [loadPdfDocuments, extractPdf, hsec, IH]

/-- Every document the PDF loader emits contains a non-whitespace character
(its content is a nonempty stripped section text). -/
theorem loadPdfDocuments_nonws : ∀ (pdfs : List PdfFileInfo) (docs : List Doc),
    loadPdfDocuments pdfs = .ok docs →
    ∀ d ∈ docs, ∃ ch ∈ d.content, isPyWS ch = false
  | [], docs, h, d, hd => by
    simp only [loadPdfDocuments] at h
    cases h
    simp at hd
  | f :: fs, docs, h, d, hd => by
    rcases hsec : f.sections with _ | secs
    · rw [loadPdfDocuments, extractPdf, hsec] at h
      cases h
    · rw [loadPdfDocuments, extractPdf, hsec] at h
      rcases hrest : loadPdfDocuments fs with e | rest
      · rw [hrest] at h
        cases h
      · rw [hrest] at h
        simp only [Except.ok.injEq] at h
        subst h
        rcases List.mem_append.mp hd with hleft | hright
        · simp only [List.mem_filterMap] at hleft
          rcases hleft with ⟨t, ht, hsome⟩
          by_cases hemp : (pyStrip t).isEmpty
          · simp [hemp] at hsome
          · simp only [hemp, Bool.false_eq_true, if_false, Option.some.injEq] at hsome
            subst hsome
            exact pyStrip_ne_nil_exists_nonws (by simpa [List.isEmpty_iff] using hemp)
        · exact loadPdfDocuments_nonws fs rest hrest d hright

/-- Whether a fetch result's extracted text is already stripped, as
BeautifulSoup's `get_text(strip=True)` extraction guarantees. -/
def fetchStripped : FetchResult → Prop
  | .fetchError => True
  | .page _ extracted => pyStrip extracted = extracted

/-- Every document the URL loader emits (without pre-chunking) from stripped
pages contains a non-whitespace character. -/
theorem loadUrlDocuments_nonws {fs : List FetchResult} {cs : Nat}
    (hstrip : ∀ r ∈ fs, fetchStripped r) :
    ∀ d ∈ loadUrlDocuments fs false cs, ∃ ch ∈ d.content, isPyWS ch = false := by
  intro d hd
  simp only [loadUrlDocuments, List.mem_flatten, List.mem_map] at hd
  rcases hd with ⟨l, ⟨r, hr, rfl⟩, hdl⟩
  rcases r with _ | ⟨title, extracted⟩
  · simp [docsForFetch] at hdl
  · simp only [docsForFetch] at hdl
    by_cases hemp : extracted.isEmpty
    · simp [hemp] at hdl
    · rw [if_neg (by simp [hemp])] at hdl
      by_cases hlen : 50 < (extracted.take 1000000).length
      · rw [if_pos hlen] at hdl
        rw [if_neg (by simp)] at hdl
        simp only [List.mem_singleton] at hdl
        subst hdl
        rcases he : extracted with _ | ⟨c, cs'⟩
        · simp [he] at hemp
        · have hc : isPyWS c = false :=
            head_not_ws_of_pyStrip_eq (hstrip _ hr) he
          refine ⟨c, ?_, hc⟩
          show c ∈ List.take 1000000 (c :: cs')
          rw [show (1000000 : Nat) = 999999 + 1 from rfl, List.take_succ_cons]
          exact List.mem_cons_self c _
      · rw [if_neg hlen] at hdl
        simp at hdl

/-- `chunk_documents` emits at least one chunk per input document, provided
every oversized document contains a non-whitespace character. -/
theorem chunkDocuments_ne_nil {B O : Nat} : ∀ {docs : List Doc},
    docs ≠ [] →
    (∀ d ∈ docs, B < d.content.length → ∃ ch ∈ d.content, isPyWS ch = false) →
    chunkDocuments B O docs ≠ [] := by
  intro docs hne h
  rcases docs with _ | ⟨d, rest⟩
  · exact absurd rfl hne
  · have hsplit : chunkDocuments B O (d :: rest) =
        chunkOne B O d ++ chunkDocuments B O rest := by
      simp [chunkDocuments]
    rw [hsplit]
    have hone : chunkOne B O d ≠ [] := by
      by_cases hlen : d.content.length ≤ B
      · rw [chunkOne_small hlen]
        simp
      · intro hnil
        have hmap := chunkOne_map_content (B := B) (O := O) (d := d) (by omega)
        rw [hnil] at hmap
        have hws := splitTextRec_eq_nil_ws B O pdfSeparators d.content hmap.symm
        rcases h d (by simp) (by omega) with ⟨ch, hch, hchws⟩
        rw [hws ch hch] at hchws
        cases hchws
    intro hnil
    rcases List.append_eq_nil.mp hnil with ⟨h1, _⟩
    exact hone h1

/-- The PDF loader only ever fails with the parse error. -/
theorem loadPdfDocuments_error_eq : ∀ (pdfs : List PdfFileInfo) (e : LoadError),
    loadPdfDocuments pdfs = .error e → e = .pdfParse
  | [], e, h => by simp [loadPdfDocuments] at h
  | f :: fs, e, h => by
    rcases hsec : f.sections with _ | secs
    · simp only [loadPdfDocuments, extractPdf, hsec, Except.error.injEq] at h
      exact h.symm
    · simp only [loadPdfDocuments, extractPdf, hsec] at h
      rcases hrest : loadPdfDocuments fs with e2 | rest
      · rw [hrest] at h
        simp only [Except.error.injEq] at h
        exact h ▸ loadPdfDocuments_error_eq fs e2 hrest
      · rw [hrest] at h
        cases h

/-- C2 counterexample: one unparseable PDF makes `load_all_documents` raise
even though another PDF and a URL source have perfectly good content — a PDF
parse failure is NOT logged-and-skipped, it aborts the whole batch. -/
theorem load_all_documents_counterexample :
    loadAllDocuments 1000 200
        ([⟨"bad.pdf".toList, none⟩,
          ⟨"good.pdf".toList, some ["Hello world".toList]⟩] : List PdfFileInfo)
        (some [FetchResult.page "T".toList
          "This page has more than fifty characters of content in it.".toList]) =
      .error .pdfParse ∧
    loadUrlDocuments
        [FetchResult.page "T".toList
          "This page has more than fifty characters of content in it.".toList]
        false 3000 ≠ [] :=
  ⟨rfl, by decide⟩

/-- C2 (amended): `load_all_documents` raises exactly when some PDF fails to
parse (the parse exception propagates — only URL-level failures are logged
and skipped while the batch continues) or when no documents at all were
obtained from PDFs and URLs combined; on success, provided every fetched
page's extracted text is stripped (as BeautifulSoup's `strip=True` extraction
makes it), the returned chunk sequence is non-empty. -/
theorem load_all_documents_amended (B O : Nat) (pdfs : List PdfFileInfo)
    (ufo : Option (List FetchResult))
    (hstrip : ∀ fs, ufo = some fs → ∀ r ∈ fs, fetchStripped r) :
    (loadAllDocuments B O pdfs ufo = .error .pdfParse ↔ ∃ f ∈ pdfs, f.sections = none) ∧
    (loadAllDocuments B O pdfs ufo = .error .noDocuments ↔
      (loadPdfDocuments pdfs = .ok [] ∧ urlDocsOf ufo = [])) ∧
    (∀ (fs1 fs2 : List FetchResult) (ec : Bool) (cs : Nat),
      loadUrlDocuments (fs1 ++ .fetchError :: fs2) ec cs =
        loadUrlDocuments (fs1 ++ fs2) ec cs) ∧
    (∀ chunks, loadAllDocuments B O pdfs ufo = .ok chunks → chunks ≠ []) := by
  refine ⟨?_, ?_, ?_, ?_⟩
  · constructor
    · intro h
      by_contra hno
      push_neg at hno
      rcases loadPdfDocuments_ok pdfs (fun f hf => by
        intro hnone
        exact absurd hnone (by simpa using hno f hf)) with ⟨docs, hdocs⟩
      simp only [loadAllDocuments, hdocs] at h
      by_cases he : (docs ++ urlDocsOf ufo).isEmpty
      · rw [if_pos he] at h
        cases h
      · rw [if_neg he] at h
        cases h
    · intro h
      simp [loadAllDocuments, loadPdfDocuments_error pdfs h]
  · constructor
    · intro h
      rcases hload : loadPdfDocuments pdfs with e | docs
      · have he : e = .pdfParse := loadPdfDocuments_error_eq pdfs e hload
        subst he
        simp only [loadAllDocuments, hload] at h
        simp at h
      · simp only [loadAllDocuments, hload] at h
        by_cases he : (docs ++ urlDocsOf ufo).isEmpty
        · rcases List.append_eq_nil.mp (List.isEmpty_iff.mp he) with ⟨h1, h2⟩
          subst h1
          exact ⟨by simp [hload], h2⟩
        · rw [if_neg he] at h
          cases h
    · intro ⟨h1, h2⟩
      simp [loadAllDocuments, h1, h2]
  · intro fs1 fs2 ec cs
    simp [loadUrlDocuments, docsForFetch]
  · intro chunks h
    rcases hload : loadPdfDocuments pdfs with e | docs
    · simp only [loadAllDocuments, hload] at h
      cases h
    · simp only [loadAllDocuments, hload] at h
      by_cases he : (docs ++ urlDocsOf ufo).isEmpty
      · rw [if_pos he] at h
        cases h
      · rw [if_neg he] at h
        simp only [Except.ok.injEq] at h
        subst h
        refine chunkDocuments_ne_nil (by simpa [List.isEmpty_iff] using he) ?_
        intro d hd hbig
        rcases List.mem_append.mp hd with hpdf | hurl
        · exact loadPdfDocuments_nonws pdfs docs hload d hpdf
        · rcases ufo with _ | fs
          · simp [urlDocsOf] at hurl
          · exact loadUrlDocuments_nonws (hstrip fs rfl) d hurl

/-- Witness for the amended C2: a concrete run with one good PDF and no urls
file succeeds with a non-empty chunk list. -/
theorem load_all_documents_amended_witness :
    loadAllDocuments 1000 200
        ([⟨"good.pdf".toList, some ["Hello world".toList]⟩] : List PdfFileInfo) none =
      .ok ([⟨"Hello world".toList, ⟨"good.pdf".toList, none, none, false⟩⟩] : List Doc) ∧
    ([⟨"Hello world".toList, ⟨"good.pdf".toList, none, none, false⟩⟩] : List Doc) ≠ [] :=
  ⟨rfl,
    (load_all_documents_amended 1000 200
        ([⟨"good.pdf".toList, some ["Hello world".toList]⟩] : List PdfFileInfo) none
        (fun fs h => by cases h)).2.2.2
      ([⟨"Hello world".toList, ⟨"good.pdf".toList, none, none, false⟩⟩] : List Doc)
      rfl⟩

/-! ## Lemmas: the PDF change tracker (C5, C6, C10) -/

theorem insertName_not_mem {n : List Char} {m : Nat} :
    ∀ {d : List (List Char × Nat)}, n ∉ d.map Prod.fst →
      insertName n m d = d ++ [(n, m)]
  | [], _ => rfl
  | (k, v) :: rest, h => by
    have hk : ¬ k = n := by
      intro hkn
      exact h (by simp [hkn])
    simp only [insertName, if_neg hk, List.cons_append, List.cons.injEq, true_and]
    exact insertName_not_mem (fun hm => h (by simp [hm]))

theorem foldl_insertName_eq : ∀ (l acc : List (List Char × Nat)),
    (l.map Prod.fst).Nodup → (∀ p ∈ l, p.1 ∉ acc.map Prod.fst) →
    l.foldl (fun d p => insertName p.1 p.2 d) acc = acc ++ l
  | [], acc, _, _ => by simp
  | p :: rest, acc, hnodup, hdisj => by
    simp only [List.foldl_cons]
    rw [insertName_not_mem (hdisj p (by simp))]
    rw [foldl_insertName_eq rest (acc ++ [(p.1, p.2)])
      (by simpa using hnodup.of_cons)
      (by
        intro q hq
        simp only [List.map_append, List.mem_append]
        rintro (hacc | hsingle)
        · exact hdisj q (by simp [hq]) hacc
        · simp only [List.map_cons, List.map_nil, List.mem_singleton] at hsingle
          simp only [List.map_cons, List.nodup_cons] at hnodup
          exact hnodup.1 (hsingle ▸ List.mem_map_of_mem Prod.fst hq))]
    simp

theorem mtimesOf_eq_self {listing : List (List Char × Nat)}
    (h : (listing.map Prod.fst).Nodup) : mtimesOf listing = listing := by
  unfold mtimesOf
  simpa using foldl_insertName_eq listing [] h (by simp)

theorem lookupName_mem : ∀ {d : List (List Char × Nat)} {n : List Char} {m : Nat},
    (d.map Prod.fst).Nodup → (n, m) ∈ d → lookupName d n = some m
  | (k, v) :: rest, n, m, hnodup, hmem => by
    simp only [List.map_cons, List.nodup_cons] at hnodup
    by_cases hk : k = n
    · subst hk
      rcases List.mem_cons.mp hmem with heq | hrest
      · have hv : m = v := (Prod.ext_iff.mp heq).2
        subst hv
        simp [lookupName]
      · exact absurd (List.mem_map_of_mem Prod.fst hrest) hnodup.1
    · rw [lookupName, if_neg hk]
      rcases List.mem_cons.mp hmem with heq | hrest
      · exact absurd (congrArg Prod.fst heq.symm) hk
      · exact lookupName_mem hnodup.2 hrest

theorem lookupName_eq_none : ∀ {d : List (List Char × Nat)} {n : List Char},
    n ∉ d.map Prod.fst → lookupName d n = none
  | [], n, _ => rfl
  | (k, v) :: rest, n, h => by
    have hk : ¬ k = n := fun hkn => h (by simp [hkn])
    rw [lookupName, if_neg hk]
    exact lookupName_eq_none (fun hm => h (by simp [hm]))

theorem lookupName_some_mem : ∀ {d : List (List Char × Nat)} {n : List Char} {m : Nat},
    lookupName d n = some m → (n, m) ∈ d
  | [], n, m, h => by simp [lookupName] at h
  | (k, v) :: rest, n, m, h => by
    by_cases hk : k = n
    · subst hk
      rw [lookupName, if_pos rfl] at h
      simp only [Option.some.injEq] at h
      simp [h]
    · rw [lookupName, if_neg hk] at h
      exact List.mem_cons_of_mem _ (lookupName_some_mem h)

theorem setEqB_refl (a : List (List Char)) : setEqB a a = true := by
  simp [setEqB]

/-- A tracker state whose snapshot matches the current listing reports no
change. -/
theorem pdfsChanged_fresh_false (listing : List (List Char × Nat))
    (hnodup : (listing.map Prod.fst).Nodup) :
    (pdfsChanged listing ⟨listing.map Prod.fst, mtimesOf listing⟩).1 = false := by
  have hany : (listing.any fun p =>
      !decide (lookupName (mtimesOf listing) p.1 = some p.2)) = false := by
    rw [List.any_eq_false]
    intro p hp
    rw [mtimesOf_eq_self hnodup, lookupName_mem hnodup hp]
    simp
  simp only [pdfsChanged, hany, setEqB_refl, Bool.not_true, Bool.or_false,
    Bool.false_eq_true, if_false]

/-- C5: whatever the first call returned, a second `_pdfs_changed` call
against an unchanged directory listing returns `false`. -/
theorem pdfs_changed_second_false (listing : List (List Char × Nat)) (st : TrackerState)
    (hnodup : (listing.map Prod.fst).Nodup) :
    (pdfsChanged listing (pdfsChanged listing st).2).1 = false := by
  by_cases hch : ((listing.any fun p =>
      !decide (lookupName st.pdfMtimes p.1 = some p.2))
        || !setEqB st.knownPdfs (listing.map Prod.fst)) = true
  · have h2 : (pdfsChanged listing st).2 = ⟨listing.map Prod.fst, mtimesOf listing⟩ := by
      simp only [pdfsChanged, hch, if_true]
    rw [h2]
    exact pdfsChanged_fresh_false listing hnodup
  · have hfalse : ((listing.any fun p =>
        !decide (lookupName st.pdfMtimes p.1 = some p.2))
          || !setEqB st.knownPdfs (listing.map Prod.fst)) = false :=
      Bool.not_eq_true _ ▸ hch
    have h2 : (pdfsChanged listing st).2 = st := by
      simp only [pdfsChanged, hfalse, Bool.false_eq_true, if_false]
    rw [h2]
    simp only [pdfsChanged, hfalse, Bool.false_eq_true, if_false]

/-- Witness for C5 at a concrete listing and a stale tracker state. -/
theorem pdfs_changed_second_false_witness :
    (([(("a.pdf".toList : List Char), (7 : Nat))].map Prod.fst).Nodup) ∧
      (pdfsChanged [(("a.pdf".toList : List Char), (7 : Nat))]
        (pdfsChanged [(("a.pdf".toList : List Char), (7 : Nat))]
          (⟨["b.pdf".toList], [("b.pdf".toList, 3)]⟩ : TrackerState)).2).1 = false :=
  ⟨by decide,
    pdfs_changed_second_false [(("a.pdf".toList : List Char), (7 : Nat))]
      (⟨["b.pdf".toList], [("b.pdf".toList, 3)]⟩ : TrackerState) (by decide)⟩

/-- C6: after every `_pdfs_changed` call on a consistent tracker state (the
known-name set is the mtime dict's key set, as every writer of the state
keeps it), the stored snapshot equals the freshly computed one — the name
set extensionally, the dict as a lookup function (Python set/dict equality
is extensional).  When `changed` is true the assignment performs the
replacement; when it is false the old snapshot already equals the fresh
one. -/
theorem pdfs_changed_replaces_snapshot (listing : List (List Char × Nat)) (st : TrackerState)
    (hnodup : (listing.map Prod.fst).Nodup)
    (hconsist : ∀ n, n ∈ st.knownPdfs ↔ ∃ m, (n, m) ∈ st.pdfMtimes) :
    (∀ n, n ∈ (pdfsChanged listing st).2.knownPdfs ↔ n ∈ listing.map Prod.fst) ∧
    (∀ n, lookupName (pdfsChanged listing st).2.pdfMtimes n =
      lookupName (mtimesOf listing) n) := by
  by_cases hch : ((listing.any fun p =>
      !decide (lookupName st.pdfMtimes p.1 = some p.2))
        || !setEqB st.knownPdfs (listing.map Prod.fst)) = true
  · have h2 : (pdfsChanged listing st).2 = ⟨listing.map Prod.fst, mtimesOf listing⟩ := by
      simp only [pdfsChanged, hch, if_true]
    rw [h2]
    exact ⟨fun n => Iff.rfl, fun n => rfl⟩
  · have hfalse : ((listing.any fun p =>
        !decide (lookupName st.pdfMtimes p.1 = some p.2))
          || !setEqB st.knownPdfs (listing.map Prod.fst)) = false :=
      Bool.not_eq_true _ ▸ hch
    have h2 : (pdfsChanged listing st).2 = st := by
      simp only [pdfsChanged, hfalse, Bool.false_eq_true, if_false]
    rw [h2]
    rcases Bool.or_eq_false_iff.mp hfalse with ⟨hany, hset⟩
    have hset2 : setEqB st.knownPdfs (listing.map Prod.fst) = true := by
      cases hb : setEqB st.knownPdfs (listing.map Prod.fst)
      · rw [hb] at hset
        simp at hset
      · rfl
    have hprop : (∀ x ∈ st.knownPdfs, x ∈ listing.map Prod.fst) ∧
        (∀ x ∈ listing.map Prod.fst, x ∈ st.knownPdfs) := of_decide_eq_true hset2
    have hseteq : ∀ n, n ∈ st.knownPdfs ↔ n ∈ listing.map Prod.fst :=
      fun n => ⟨fun hn => hprop.1 n hn, fun hn => hprop.2 n hn⟩
    have hmatch : ∀ p ∈ listing, lookupName st.pdfMtimes p.1 = some p.2 := by
      intro p hp
      have := List.any_eq_false.mp hany p hp
      simpa using this
    refine ⟨hseteq, fun n => ?_⟩
    rw [mtimesOf_eq_self hnodup]
    by_cases hn : n ∈ listing.map Prod.fst
    · rcases List.mem_map.mp hn with ⟨p, hp, hp1⟩
      have h1 : lookupName listing n = some p.2 := by
        rw [← hp1]
        exact lookupName_mem hnodup (by simpa using hp)
      have h2 : lookupName st.pdfMtimes n = some p.2 := by
        rw [← hp1]
        exact hmatch p hp
      rw [h1, h2]
    · rw [lookupName_eq_none hn]
      rcases hlook : lookupName st.pdfMtimes n with _ | m
      · rfl
      · exfalso
        have hpair : (n, m) ∈ st.pdfMtimes := lookupName_some_mem hlook
        have : n ∈ st.knownPdfs := (hconsist n).mpr ⟨m, hpair⟩
        exact hn ((hseteq n).mp this)

/-- Witness for C6 at a concrete listing and consistent state. -/
theorem pdfs_changed_replaces_snapshot_witness :
    (([(("a.pdf".toList : List Char), (7 : Nat))].map Prod.fst).Nodup) ∧
      ("a.pdf".toList ∈
          (pdfsChanged [(("a.pdf".toList : List Char), (7 : Nat))]
            (⟨["b.pdf".toList], [("b.pdf".toList, 3)]⟩ : TrackerState)).2.knownPdfs ↔
        "a.pdf".toList ∈
          [(("a.pdf".toList : List Char), (7 : Nat))].map Prod.fst) :=
  ⟨by decide,
    (pdfs_changed_replaces_snapshot [(("a.pdf".toList : List Char), (7 : Nat))]
      (⟨["b.pdf".toList], [("b.pdf".toList, 3)]⟩ : TrackerState) (by decide)
      (by
        intro n
        constructor
        · intro hn
          refine ⟨3, ?_⟩
          simp only [List.mem_singleton] at hn
          simp [hn]
        · intro ⟨m, hm⟩
          simp only [List.mem_singleton, Prod.mk.injEq] at hm
          simp [hm.1])).1 "a.pdf".toList⟩

/-- C10: on a freshly constructed `DocumentManager` (empty snapshot),
`has_changes` returns true exactly when the watched directory contains at
least one PDF file. -/
theorem has_changes_fresh (listing : List (List Char × Nat)) :
    (hasChanges listing initialTracker).1 = !listing.isEmpty := by
  rcases listing with _ | ⟨p, rest⟩
  · simp [hasChanges, pdfsChanged, setEqB, mtimesOf, initialTracker]
  · have hany : (((p :: rest).any fun q =>
        !decide (lookupName initialTracker.pdfMtimes q.1 = some q.2))) = true := by
      simp only [List.any_cons, Bool.or_eq_true]
      left
      simp [initialTracker, lookupName]
    simp [hasChanges, pdfsChanged, hany]

/-! ## C7, C8, C9 -/

/-- C7: cache validation and loading never surface an error — a missing or
unreadable metadata file makes `is_cache_valid` return false, and a missing
or undeserializable index makes `load_vectorstore` return `None`; both
resolve to a cache miss. -/
theorem cache_never_raises (listing : List PdfStat) (urls : Option (List Char))
    (mf : MetadataFile) :
    (mf = .absent ∨ mf = .unreadable → isCacheValid mf listing urls = false) ∧
    (∀ mf2 : MetadataFile,
      loadVectorstore .missing mf2 = none ∧ loadVectorstore .corrupt mf2 = none) := by
  constructor
  · rintro (rfl | rfl) <;> rfl
  · intro mf2
    exact ⟨rfl, rfl⟩

/-- Witness for C7 at a concrete environment. -/
theorem cache_never_raises_witness :
    ((MetadataFile.absent = MetadataFile.absent ∨
        MetadataFile.absent = MetadataFile.unreadable) ∧
      isCacheValid .absent [] none = false) ∧
    loadVectorstore .missing .absent = none ∧ loadVectorstore .corrupt .absent = none :=
  ⟨⟨Or.inl rfl, (cache_never_raises [] none .absent).1 (Or.inl rfl)⟩,
    (cache_never_raises [] none .absent).2 .absent⟩

/-- C8: a fetched URL whose extracted text is below the 50-character minimum
content threshold contributes no document (a skip, not an error) and the
remaining URLs are processed exactly as if it were not there. -/
theorem short_page_skipped (fs1 fs2 : List FetchResult) (title extracted : List Char)
    (ec : Bool) (cs : Nat) (hshort : extracted.length < 50) :
    loadUrlDocuments (fs1 ++ .page title extracted :: fs2) ec cs =
      loadUrlDocuments (fs1 ++ fs2) ec cs := by
  have hdocs : docsForFetch ec cs (.page title extracted) = [] := by
    simp only [docsForFetch]
    by_cases hemp : extracted.isEmpty
    · rw [if_pos hemp]
    · rw [if_neg hemp]
      have htrunc : (extracted.take 1000000).length ≤ extracted.length :=
        (List.take_sublist _ _).length_le
      rw [if_neg (by omega)]
  simp [loadUrlDocuments, hdocs]

/-- Witness for C8: a 3-character page between two good pages is skipped. -/
theorem short_page_skipped_witness :
    ("abc".toList : List Char).length < 50 ∧
      loadUrlDocuments
          ([] ++ FetchResult.page "T".toList "abc".toList ::
            [FetchResult.page "U".toList
              "This page has more than fifty characters of content in it.".toList])
          false 3000 =
        loadUrlDocuments
          ([] ++ [FetchResult.page "U".toList
            "This page has more than fifty characters of content in it.".toList])
          false 3000 :=
  ⟨by decide,
    short_page_skipped []
      [FetchResult.page "U".toList
        "This page has more than fifty characters of content in it.".toList]
      "T".toList "abc".toList false 3000 (by decide)⟩

/-- C9: without pre-chunking, every document `load_url_documents` produces
has content of at most 1,000,000 characters, and that content is the first
1,000,000 characters of the text extracted from some fetched page. -/
theorem url_documents_truncated (fs : List FetchResult) (cs : Nat) (d : Doc)
    (hd : d ∈ loadUrlDocuments fs false cs) :
    d.content.length ≤ 1000000 ∧
      ∃ title extracted, FetchResult.page title extracted ∈ fs ∧
        d.content = extracted.take 1000000 := by
  simp only [loadUrlDocuments, List.mem_flatten, List.mem_map] at hd
  rcases hd with ⟨l, ⟨r, hr, rfl⟩, hdl⟩
  rcases r with _ | ⟨title, extracted⟩
  · simp [docsForFetch] at hdl
  · simp only [docsForFetch] at hdl
    by_cases hemp : extracted.isEmpty
    · simp [hemp] at hdl
    · rw [if_neg (by simp [hemp])] at hdl
      by_cases hlen : 50 < (extracted.take 1000000).length
      · rw [if_pos hlen] at hdl
        rw [if_neg (by simp)] at hdl
        simp only [List.mem_singleton] at hdl
        subst hdl
        refine ⟨?_, title, extracted, hr, rfl⟩
        exact List.length_take_le 1000000 extracted
      · rw [if_neg hlen] at hdl
        simp at hdl

/-- Witness for C9 at a concrete page. -/
theorem url_documents_truncated_witness :
    ((⟨"This page has more than fifty characters of content in it.".toList.take 1000000,
        ⟨"U".toList, none, none, false⟩⟩ : Doc) ∈
      loadUrlDocuments
        [FetchResult.page "U".toList
          "This page has more than fifty characters of content in it.".toList]
        false 3000) ∧
    (⟨"This page has more than fifty characters of content in it.".toList.take 1000000,
        ⟨"U".toList, none, none, false⟩⟩ : Doc).content.length ≤ 1000000 :=
  ⟨by decide,
    (url_documents_truncated
      [FetchResult.page "U".toList
        "This page has more than fifty characters of content in it.".toList]
      3000
      (⟨"This page has more than fifty characters of content in it.".toList.take 1000000,
        ⟨"U".toList, none, none, false⟩⟩ : Doc)
      (by decide)).1⟩

/-! ## Lemmas: the content fingerprint (C4) -/

theorem char_toNat_inj {a b : Char} (h : a.toNat = b.toNat) : a = b := by
  unfold Char.toNat at h
  exact Char.eq_of_val_eq (UInt32.toNat.inj h)

theorem strLe_total : ∀ a b : List Char, strLe a b = true ∨ strLe b a = true
  | [], _ => Or.inl rfl
  | _ :: _, [] => Or.inr rfl
  | a :: as, b :: bs => by
    by_cases hab : a = b
    · subst hab
      rcases strLe_total as bs with h | h
      · exact Or.inl (by simp [strLe, h])
      · exact Or.inr (by simp [strLe, h])
    · have hn : a.toNat ≠ b.toNat := fun hn => hab (char_toNat_inj hn)
      rcases Nat.lt_or_ge a.toNat b.toNat with h | h
      · exact Or.inl (by simp [strLe, hab, h])
      · have hba : ¬ b = a := fun he => hab he.symm
        have : b.toNat < a.toNat := by omega
        exact Or.inr (by simp [strLe, hba, this])

theorem strLe_trans : ∀ a b c : List Char,
    strLe a b = true → strLe b c = true → strLe a c = true
  | [], _, _, _, _ => rfl
  | a :: as, [], c, h, _ => by simp [strLe] at h
  | a :: as, b :: bs, [], _, h => by simp [strLe] at h
  | a :: as, b :: bs, c :: cs, h1, h2 => by
    by_cases hab : a = b
    · subst hab
      by_cases hbc : a = c
      · subst hbc
        simp only [strLe, if_pos rfl] at h1 h2 ⊢
        exact strLe_trans as bs cs h1 h2
      · simp only [strLe, if_pos rfl] at h1
        simpa [strLe, hbc] using h2
    · by_cases hbc : b = c
      · subst hbc
        simpa [strLe, hab] using h1
      · have h1' : a.toNat < b.toNat := by simpa [strLe, hab] using h1
        have h2' : b.toNat < c.toNat := by simpa [strLe, hbc] using h2
        have hac : ¬ a = c := by
          intro he
          subst he
          omega
        simp [strLe, hac]
        omega

theorem strLe_antisymm : ∀ a b : List Char,
    strLe a b = true → strLe b a = true → a = b
  | [], [], _, _ => rfl
  | [], _ :: _, _, h => by simp [strLe] at h
  | _ :: _, [], h, _ => by simp [strLe] at h
  | a :: as, b :: bs, h1, h2 => by
    by_cases hab : a = b
    · subst hab
      simp only [strLe, if_pos rfl] at h1 h2
      rw [strLe_antisymm as bs h1 h2]
    · have hba : ¬ b = a := fun he => hab he.symm
      have h1' : a.toNat < b.toNat := by simpa [strLe, hab] using h1
      have h2' : b.toNat < a.toNat := by simpa [strLe, hba] using h2
      omega

instance : IsTotal PdfStat (fun a b => strLe a.name b.name = true) :=
  ⟨fun a b => strLe_total a.name b.name⟩

instance : IsTrans PdfStat (fun a b => strLe a.name b.name = true) :=
  ⟨fun _ _ _ => strLe_trans _ _ _⟩

theorem sorted_nodup_eq : ∀ l1 l2 : List PdfStat,
    l1.Perm l2 →
    List.Sorted (fun a b => strLe a.name b.name = true) l1 →
    List.Sorted (fun a b => strLe a.name b.name = true) l2 →
    (l1.map (fun f => f.name)).Nodup → l1 = l2
  | [], l2, hp, _, _, _ => (hp.symm.eq_nil).symm ▸ rfl
  | a :: as, l2, hp, hs1, hs2, hn => by
    rcases l2 with _ | ⟨b, bs⟩
    · exact absurd hp.length_eq (by simp)
    · by_cases hab : a = b
      · subst hab
        have htail := hp.cons_inv
        have := sorted_nodup_eq as bs htail
          (List.sorted_cons.mp hs1).2 (List.sorted_cons.mp hs2).2
          (by
            rw [List.map_cons] at hn
            exact (List.nodup_cons.mp hn).2)
        rw [this]
      · exfalso
        have ha2 : a ∈ b :: bs := hp.subset (by simp)
        have hb1 : b ∈ a :: as := hp.symm.subset (by simp)
        have hamem : a ∈ bs := by
          rcases List.mem_cons.mp ha2 with he | hm
          · exact absurd he hab
          · exact hm
        have hbmem : b ∈ as := by
          rcases List.mem_cons.mp hb1 with he | hm
          · exact absurd he.symm hab
          · exact hm
        have h1 : strLe a.name b.name = true := (List.sorted_cons.mp hs1).1 b hbmem
        have h2 : strLe b.name a.name = true := (List.sorted_cons.mp hs2).1 a hamem
        have hname : a.name = b.name := strLe_antisymm _ _ h1 h2
        rw [List.map_cons] at hn
        have hnodup := List.nodup_cons.mp hn
        exact hnodup.1 (hname ▸ List.mem_map_of_mem (fun f => f.name) hbmem)

theorem sortByName_perm (l : List PdfStat) : (sortByName l).Perm l :=
  List.perm_insertionSort _ l

theorem sortByName_sorted (l : List PdfStat) :
    List.Sorted (fun a b => strLe a.name b.name = true) (sortByName l) :=
  List.sorted_insertionSort _ l

/-- Sorting makes the fingerprint's file part depend only on the set of
files: two listings that are permutations of each other sort identically
(given distinct file names, as a directory guarantees). -/
theorem sortByName_perm_eq {l1 l2 : List PdfStat} (hp : l1.Perm l2)
    (hn : (l1.map (fun f => f.name)).Nodup) : sortByName l1 = sortByName l2 :=
  sorted_nodup_eq (sortByName l1) (sortByName l2)
    (((sortByName_perm l1).trans hp).trans (sortByName_perm l2).symm)
    (sortByName_sorted l1) (sortByName_sorted l2)
    (((sortByName_perm l1).map (fun f => f.name)).nodup_iff.mpr hn)

/-- Digit or dot: the characters that can appear in the decimal renderings
of `st_size` and `st_mtime`. -/
def isDigitDot (c : Char) : Bool :=
  (decide (('0').toNat ≤ c.toNat) && decide (c.toNat ≤ ('9').toNat)) || c == '.'

/-- Well-formedness of one observed stat entry: the name is nonempty, free of
`':'`, and does not begin with a digit or a dot; the size and mtime
renderings are nonempty digit/dot strings (true of `str(int)` and
`str(float)`). -/
def wfStat (f : PdfStat) : Prop :=
  f.name ≠ [] ∧ (∀ c ∈ f.name, c ≠ ':') ∧
    (∀ c, f.name.head? = some c → isDigitDot c = false) ∧
    f.size ≠ [] ∧ (∀ c ∈ f.size, isDigitDot c = true ∧ c ≠ '.') ∧
    f.mtime ≠ [] ∧ (∀ c ∈ f.mtime, isDigitDot c = true)

theorem isDigitDot_ne_colon {c : Char} (h : isDigitDot c = true) : c ≠ ':' := by
  intro he
  rw [he] at h
  exact absurd h (by decide)

theorem append_colon_inj : ∀ {a b x y : List Char},
    a ++ ':' :: x = b ++ ':' :: y →
    (∀ c ∈ a, c ≠ ':') → (∀ c ∈ b, c ≠ ':') → a = b ∧ x = y
  | [], [], x, y, h, _, _ => by simpa using h
  | [], b0 :: bs, x, y, h, _, hb => by
    simp only [List.nil_append, List.cons_append, List.cons.injEq] at h
    exact absurd h.1.symm (hb b0 (by simp))
  | a0 :: as, [], x, y, h, ha, _ => by
    simp only [List.nil_append, List.cons_append, List.cons.injEq] at h
    exact absurd h.1 (ha a0 (by simp))
  | a0 :: as, b0 :: bs, x, y, h, ha, hb => by
    simp only [List.cons_append, List.cons.injEq] at h
    have := append_colon_inj h.2 (fun c hc => ha c (by simp [hc]))
      (fun c hc => hb c (by simp [hc]))
    exact ⟨by rw [h.1, this.1], this.2⟩

theorem digitdot_boundary : ∀ {t1 t2 r1 r2 : List Char},
    t1 ++ r1 = t2 ++ r2 →
    (∀ c ∈ t1, isDigitDot c = true) → (∀ c ∈ t2, isDigitDot c = true) →
    (∀ c, r1.head? = some c → isDigitDot c = false) →
    (∀ c, r2.head? = some c → isDigitDot c = false) →
    t1 = t2 ∧ r1 = r2
  | [], [], r1, r2, h, _, _, _, _ => by simpa using h
  | [], t0 :: ts, r1, r2, h, _, ht2, hb1, _ => by
    simp only [List.nil_append, List.cons_append] at h
    have hhead : r1.head? = some t0 := by rw [h]; rfl
    have := hb1 t0 hhead
    rw [ht2 t0 (by simp)] at this
    cases this
  | t0 :: ts, [], r1, r2, h, ht1, _, _, hb2 => by
    simp only [List.nil_append, List.cons_append] at h
    have hhead : r2.head? = some t0 := by rw [← h]; rfl
    have := hb2 t0 hhead
    rw [ht1 t0 (by simp)] at this
    cases this
  | t0 :: ts, s0 :: ss, r1, r2, h, ht1, ht2, hb1, hb2 => by
    simp only [List.cons_append, List.cons.injEq] at h
    have := digitdot_boundary h.2 (fun c hc => ht1 c (by simp [hc]))
      (fun c hc => ht2 c (by simp [hc])) hb1 hb2
    exact ⟨by rw [h.1, this.1], this.2⟩

theorem statEntry_append_inj {f g : PdfStat} {r1 r2 : List Char}
    (hf : wfStat f) (hg : wfStat g)
    (h : statEntry f ++ r1 = statEntry g ++ r2)
    (hb1 : ∀ c, r1.head? = some c → isDigitDot c = false)
    (hb2 : ∀ c, r2.head? = some c → isDigitDot c = false) :
    f = g ∧ r1 = r2 := by
  obtain ⟨hfn, hfnc, hfh, hfs, hfsd, hft, hftd⟩ := hf
  obtain ⟨hgn, hgnc, hgh, hgs, hgsd, hgt, hgtd⟩ := hg
  have h' : f.name ++ ':' :: (f.size ++ ':' :: (f.mtime ++ r1)) =
      g.name ++ ':' :: (g.size ++ ':' :: (g.mtime ++ r2)) := by
    simpa [statEntry, List.append_assoc] using h
  have step1 := append_colon_inj h' hfnc hgnc
  have step2 := append_colon_inj step1.2
    (fun c hc => isDigitDot_ne_colon (hfsd c hc).1)
    (fun c hc => isDigitDot_ne_colon (hgsd c hc).1)
  have step3 := digitdot_boundary step2.2 hftd hgtd hb1 hb2
  refine ⟨?_, step3.2⟩
  rcases f with ⟨fn, fs2, ft⟩
  rcases g with ⟨gn, gs2, gt⟩
  simp only at step1 step2 step3
  rw [step1.1, step2.1, step3.1]

theorem flatten_entries_boundary {fs : List PdfStat}
    (hwf : ∀ f ∈ fs, wfStat f) :
    ∀ c, ((fs.map statEntry).flatten).head? = some c → isDigitDot c = false := by
  intro c hc
  rcases fs with _ | ⟨f, rest⟩
  · simp at hc
  · have hf := hwf f (by simp)
    rcases hname : f.name with _ | ⟨n0, ns⟩
    · exact absurd hname hf.1
    · have : ((f :: rest).map statEntry).flatten.head? = some n0 := by
        simp only [List.map_cons, List.flatten_cons, statEntry, hname]
        rfl
      rw [this] at hc
      simp only [Option.some.injEq] at hc
      rw [← hc]
      exact hf.2.2.1 n0 (by rw [hname]; rfl)

theorem entries_flatten_inj : ∀ (l1 l2 : List PdfStat),
    (∀ f ∈ l1, wfStat f) → (∀ f ∈ l2, wfStat f) →
    (l1.map statEntry).flatten = (l2.map statEntry).flatten → l1 = l2
  | [], [], _, _, _ => rfl
  | [], g :: gs, _, hwf2, h => by
    simp only [List.map_nil, List.flatten_nil, List.map_cons, List.flatten_cons] at h
    have hgn := (hwf2 g (by simp)).1
    rcases hname : g.name with _ | ⟨n0, ns⟩
    · exact absurd hname hgn
    · rw [statEntry, hname] at h
      cases h
  | f :: fs, [], hwf1, _, h => by
    simp only [List.map_nil, List.flatten_nil, List.map_cons, List.flatten_cons] at h
    have hfn := (hwf1 f (by simp)).1
    rcases hname : f.name with _ | ⟨n0, ns⟩
    · exact absurd hname hfn
    · rw [statEntry, hname] at h
      cases h
  | f :: fs, g :: gs, hwf1, hwf2, h => by
    simp only [List.map_cons, List.flatten_cons] at h
    have hstep := statEntry_append_inj (hwf1 f (by simp)) (hwf2 g (by simp)) h
      (flatten_entries_boundary (fun q hq => hwf1 q (by simp [hq])))
      (flatten_entries_boundary (fun q hq => hwf2 q (by simp [hq])))
    rw [hstep.1, entries_flatten_inj fs gs (fun q hq => hwf1 q (by simp [hq]))
      (fun q hq => hwf2 q (by simp [hq])) hstep.2]

/-- Well-formedness of a directory listing: every stat entry is well formed
and the file names are distinct (as in any real directory). -/
def wfListing (l : List PdfStat) : Prop :=
  (∀ f ∈ l, wfStat f) ∧ (l.map (fun f => f.name)).Nodup

instance (f : PdfStat) : Decidable (wfStat f) := by
  unfold wfStat
  infer_instance

instance (l : List PdfStat) : Decidable (wfListing l) := by
  unfold wfListing
  infer_instance

/-- C4 counterexample: renaming the file `a.pdf:1:2.0b.pdf` to
`b.pdf:1:2.0a.pdf` (same size, same mtime, second file untouched) re-orders
the sorted listing in a way that slides the entry boundaries: the
concatenated `name:size:mtime` byte stream fed to MD5 — and hence the
fingerprint — is identical, refuting "renaming any file yields a different
fingerprint".  (Colons are legal in POSIX file names and the entries are
concatenated with no boundary marker.) -/
theorem fingerprint_rename_counterexample :
    contentFingerprint
        [⟨"a.pdf:1:2.0b.pdf".toList, "1".toList, "2.0".toList⟩,
         ⟨"a.pdf:1:2.0b.pdf:1:2.0a.pdf".toList, "1".toList, "2.0".toList⟩] none =
      contentFingerprint
        [⟨"b.pdf:1:2.0a.pdf".toList, "1".toList, "2.0".toList⟩,
         ⟨"a.pdf:1:2.0b.pdf:1:2.0a.pdf".toList, "1".toList, "2.0".toList⟩] none ∧
    ("a.pdf:1:2.0b.pdf".toList : List Char) ≠ "b.pdf:1:2.0a.pdf".toList ∧
    ("1".toList : List Char) = "1".toList ∧ ("2.0".toList : List Char) = "2.0".toList :=
  ⟨by decide, by decide, rfl, rfl⟩

/-- C4 (amended): for listings whose file names contain no `':'` and do not
begin with a digit or a dot (and are pairwise distinct, as in a directory),
the MD5 input stream determines the file set exactly: two listings have
equal fingerprints iff they are permutations of each other.  In particular
reordering the same files leaves the fingerprint unchanged, and renaming a
file or changing a file's modification time (which changes the set of
(name, size, mtime) stats) changes it. -/
theorem fingerprint_iff (l1 l2 : List PdfStat) (urls : Option (List Char))
    (h1 : wfListing l1) (h2 : wfListing l2) :
    contentFingerprint l1 urls = contentFingerprint l2 urls ↔ l1.Perm l2 := by
  constructor
  · intro h
    have hstream : ((sortByName l1).map statEntry).flatten =
        ((sortByName l2).map statEntry).flatten := by
      rcases urls with _ | content
      · simpa [contentFingerprint] using h
      · have h' : ((sortByName l1).map statEntry).flatten ++ content =
            ((sortByName l2).map statEntry).flatten ++ content := by
          simpa [contentFingerprint] using h
        exact List.append_cancel_right h'
    have hsorted := entries_flatten_inj (sortByName l1) (sortByName l2)
      (fun f hf => h1.1 f ((sortByName_perm l1).subset hf))
      (fun f hf => h2.1 f ((sortByName_perm l2).subset hf)) hstream
    have hp2 : (sortByName l1).Perm l2 := hsorted ▸ sortByName_perm l2
    exact (sortByName_perm l1).symm.trans hp2
  · intro hp
    have := sortByName_perm_eq hp h1.2
    simp [contentFingerprint, this]

/-- Witness for the amended C4: two orderings of the same two files have the
same fingerprint. -/
theorem fingerprint_iff_witness :
    wfListing [⟨"a.pdf".toList, "10".toList, "1.5".toList⟩,
      ⟨"b.pdf".toList, "20".toList, "2.5".toList⟩] ∧
    contentFingerprint
        [⟨"a.pdf".toList, "10".toList, "1.5".toList⟩,
         ⟨"b.pdf".toList, "20".toList, "2.5".toList⟩] (some "u".toList) =
      contentFingerprint
        [⟨"b.pdf".toList, "20".toList, "2.5".toList⟩,
         ⟨"a.pdf".toList, "10".toList, "1.5".toList⟩] (some "u".toList) :=
  ⟨⟨by decide, by decide⟩,
    (fingerprint_iff
      [⟨"a.pdf".toList, "10".toList, "1.5".toList⟩,
        ⟨"b.pdf".toList, "20".toList, "2.5".toList⟩]
      [⟨"b.pdf".toList, "20".toList, "2.5".toList⟩,
        ⟨"a.pdf".toList, "10".toList, "1.5".toList⟩]
      (some "u".toList) ⟨by decide, by decide⟩ ⟨by decide, by decide⟩).mpr
      (by decide)⟩
